import Mathlib

/-!
Verification of the positional linked-list core of the repository
(`src/linked_list/_double.py`, `src/linked_list/positional.py`,
`src/linked_list/favourites.py`, `src/linked_list/favourites_mtf.py`,
`src/linked_list/insertion_sort.py`).

The Python object graph of `DoublyLinkedBase` is embedded as a heap of
`Node` records addressed by numeric ids: id `0` is the `Header` sentinel,
id `1` is the `Trailer` sentinel, and every `Node` created by `_insert`
receives the next unused id, starting from `2`.  Node objects are never
deleted from the heap, mirroring Python, where a removed node stays alive
as long as a `Position` references it.
-/

namespace LinkedList

/-- Errors raised by the modelled operations: `ValueError("invalid position")`,
`IndexError("remove sentinel node")` and `IndexError("list has less than k items")`. -/
inductive Err where
  | invalidPosition
  | removeSentinel
  | insufficientItems
deriving DecidableEq

/-- Model of `Node` in `src/linked_list/_double.py`: fields `data`, `prev`,
`next` and the `deprecated` flag (initially `False`).  `prev`/`next` hold the
heap id of the neighbouring object (`0` = header, `1` = trailer). -/
structure Node (α : Type) where
  data : α
  prev : Nat
  next : Nat
  deprecated : Bool
deriving DecidableEq

/-- Model of `DoublyLinkedBase` in `src/linked_list/_double.py`.
`headerNext` is the header sentinel's single field `next`; `trailerPrev` is
the trailer sentinel's single field `prev`; `nodes` is the heap of all
`Node` objects this list has ever created; `size` models the Python int
`_size` (an `Int`, since nothing in the code keeps it nonnegative);
`fresh` is the next unused node id; `ident` models the identity of the
list object itself (used by the `position._list is not self` check). -/
structure DoublyLinkedBase (α : Type) where
  ident : Nat
  headerNext : Nat
  trailerPrev : Nat
  nodes : List (Nat × Node α)
  size : Int
  fresh : Nat
deriving DecidableEq

variable {α : Type}

/-- `DoublyLinkedBase.__init__`: the two sentinels point at each other and
the size is `0`. -/
def DoublyLinkedBase.empty (α : Type) (ident : Nat) : DoublyLinkedBase α :=
  ⟨ident, 1, 0, [], 0, 2⟩

/-- Dereference a node id in the heap (first entry wins; ids are unique on
every state the code can construct). -/
def getEntry : List (Nat × Node α) → Nat → Option (Node α)
  | [], _ => none
  | e :: m, i => if e.1 = i then some e.2 else getEntry m i

/-- Look a node object up by id. -/
def DoublyLinkedBase.getNode (l : DoublyLinkedBase α) (i : Nat) : Option (Node α) :=
  getEntry l.nodes i

/-- Mutate the node object with id `j` in place (field update `f`). -/
def updNode (m : List (Nat × Node α)) (j : Nat) (f : Node α → Node α) :
    List (Nat × Node α) :=
  m.map fun e => if e.1 = j then (e.1, f e.2) else e

/-- The assignment `x.next = v`, where `x` is the header (id `0`) or a node. -/
def setNext (l : DoublyLinkedBase α) (j v : Nat) : DoublyLinkedBase α :=
  if j = 0 then { l with headerNext := v }
  else { l with nodes := updNode l.nodes j fun nd => { nd with next := v } }

/-- The assignment `x.prev = v`, where `x` is the trailer (id `1`) or a node. -/
def setPrev (l : DoublyLinkedBase α) (j v : Nat) : DoublyLinkedBase α :=
  if j = 1 then { l with trailerPrev := v }
  else { l with nodes := updNode l.nodes j fun nd => { nd with prev := v } }

/-- The assignment `node.deprecated = True` (from `PositionalList.remove`). -/
def setDeprecated (l : DoublyLinkedBase α) (j : Nat) : DoublyLinkedBase α :=
  { l with nodes := updNode l.nodes j fun nd => { nd with deprecated := true } }

/-- The assignment `node.data = item` (from `PositionalList.replace`). -/
def setData (l : DoublyLinkedBase α) (j : Nat) (x : α) : DoublyLinkedBase α :=
  { l with nodes := updNode l.nodes j fun nd => { nd with data := x } }

/-- `DoublyLinkedBase._insert`: create a node between `prevId` and `nextId`
(the caller guarantees they are adjacent), relink both neighbours, increment
the size, and return the new node's id. -/
def DoublyLinkedBase.insertNode (l : DoublyLinkedBase α) (item : α)
    (prevId nextId : Nat) : DoublyLinkedBase α × Nat :=
  let f := l.fresh
  let l1 : DoublyLinkedBase α :=
    { l with nodes := (f, ⟨item, prevId, nextId, false⟩) :: l.nodes, fresh := f + 1 }
  let l2 := setNext l1 prevId f
  let l3 := setPrev l2 nextId f
  ({ l3 with size := l3.size + 1 }, f)

/-- `DoublyLinkedBase._remove`: raise `IndexError` on a sentinel, otherwise
splice the node out (`node.prev.next = node.next; node.next.prev = node.prev`),
decrement the size and return the stored item.  The node object itself stays
in the heap, exactly as the Python object stays alive.  (The `none` branch is
unreachable: every node object this list handles is in its heap.) -/
def DoublyLinkedBase.removeNode (l : DoublyLinkedBase α) (i : Nat) :
    Except Err (α × DoublyLinkedBase α) :=
  if i = 0 ∨ i = 1 then .error .removeSentinel
  else
    match l.getNode i with
    | none => .error .invalidPosition
    | some nd =>
      let l1 := setNext l nd.prev nd.next
      let l2 := setPrev l1 nd.next nd.prev
      .ok (nd.data, { l2 with size := l2.size - 1 })

/-- `DoublyLinkedBase.clear`: reset the sentinels to point at each other and
the size to `0`.  Note that it touches neither the heap nor any node's
`deprecated` flag. -/
def DoublyLinkedBase.clear (l : DoublyLinkedBase α) : DoublyLinkedBase α :=
  { l with headerNext := 1, trailerPrev := 0, size := 0 }

/-- `DoublyLinkedBase.__iter__`, restricted to the visited ids: follow `next`
pointers from `header.next` until the trailer.  The Python loop is unbounded;
the fuel argument only bounds the recursion and is chosen large enough to be
irrelevant on every state the code can reach. -/
def traverseFrom (l : DoublyLinkedBase α) : Nat → Nat → List Nat
  | _, 0 => []
  | i, fuel + 1 =>
    if i = 1 then []
    else
      match l.getNode i with
      | none => []
      | some nd => i :: traverseFrom l nd.next fuel

/-- Ids of the nodes visited by a forward traversal from the header. -/
def chainIds (l : DoublyLinkedBase α) : List Nat :=
  traverseFrom l l.headerNext (l.nodes.length + 1)

/-- The items yielded by `DoublyLinkedBase.__iter__`. -/
def DoublyLinkedBase.items (l : DoublyLinkedBase α) : List α :=
  (chainIds l).filterMap fun i => (l.getNode i).map Node.data

/-- Model of `Position` in `src/linked_list/positional.py`: a reference to a
node plus the identity of the owning list. -/
structure Position where
  node : Nat
  owner : Nat
deriving DecidableEq

namespace PositionalList

/-- `PositionalList._validate`: raise `ValueError("invalid position")` if the
position's list is not this list or its node is deprecated; otherwise return
the node. -/
def validate (l : DoublyLinkedBase α) (p : Position) : Except Err (Node α) :=
  if p.owner ≠ l.ident then .error .invalidPosition
  else
    match l.getNode p.node with
    | none => .error .invalidPosition
    | some nd => if nd.deprecated then .error .invalidPosition else .ok nd

/-- `PositionalList.insert_first`: insert between the header and `header.next`. -/
def insert_first (l : DoublyLinkedBase α) (item : α) : DoublyLinkedBase α × Position :=
  let r := l.insertNode item 0 l.headerNext
  (r.1, ⟨r.2, l.ident⟩)

/-- `PositionalList.insert_last`: insert between `trailer.prev` and the trailer. -/
def insert_last (l : DoublyLinkedBase α) (item : α) : DoublyLinkedBase α × Position :=
  let r := l.insertNode item l.trailerPrev 1
  (r.1, ⟨r.2, l.ident⟩)

/-- `PositionalList.insert_before`: validate, then insert between `node.prev`
and `node`. -/
def insert_before (l : DoublyLinkedBase α) (p : Position) (item : α) :
    Except Err (DoublyLinkedBase α × Position) :=
  match validate l p with
  | .error e => .error e
  | .ok nd =>
    let r := l.insertNode item nd.prev p.node
    .ok (r.1, ⟨r.2, l.ident⟩)

/-- `PositionalList.insert_after`: validate, then insert between `node` and
`node.next`. -/
def insert_after (l : DoublyLinkedBase α) (p : Position) (item : α) :
    Except Err (DoublyLinkedBase α × Position) :=
  match validate l p with
  | .error e => .error e
  | .ok nd =>
    let r := l.insertNode item p.node nd.next
    .ok (r.1, ⟨r.2, l.ident⟩)

/-- `PositionalList.remove`: validate, set `node.deprecated = True`, then
splice the node out via `_remove`. -/
def remove (l : DoublyLinkedBase α) (p : Position) :
    Except Err (α × DoublyLinkedBase α) :=
  match validate l p with
  | .error e => .error e
  | .ok _ => (setDeprecated l p.node).removeNode p.node

/-- `PositionalList.replace`: validate, then overwrite `node.data` in place
and return the old item. -/
def replace (l : DoublyLinkedBase α) (p : Position) (item : α) :
    Except Err (α × DoublyLinkedBase α) :=
  match validate l p with
  | .error e => .error e
  | .ok nd => .ok (nd.data, setData l p.node item)

/-- `PositionalList.first_position`: `None` when `header.next` is the trailer. -/
def first_position (l : DoublyLinkedBase α) : Option Position :=
  if l.headerNext = 1 then none else some ⟨l.headerNext, l.ident⟩

/-- `PositionalList.last_position`: `None` when `trailer.prev` is the header. -/
def last_position (l : DoublyLinkedBase α) : Option Position :=
  if l.trailerPrev = 0 then none else some ⟨l.trailerPrev, l.ident⟩

/-- `PositionalList.position_before`: validate, then `None` when `node.prev`
is the header. -/
def position_before (l : DoublyLinkedBase α) (p : Position) :
    Except Err (Option Position) :=
  match validate l p with
  | .error e => .error e
  | .ok nd => if nd.prev = 0 then .ok none else .ok (some ⟨nd.prev, l.ident⟩)

/-- `PositionalList.position_after`: validate, then `None` when `node.next`
is the trailer. -/
def position_after (l : DoublyLinkedBase α) (p : Position) :
    Except Err (Option Position) :=
  match validate l p with
  | .error e => .error e
  | .ok nd => if nd.next = 1 then .ok none else .ok (some ⟨nd.next, l.ident⟩)

/-- List state after `insert_first` (always succeeds). -/
def applyInsertFirst (l : DoublyLinkedBase α) (item : α) : DoublyLinkedBase α :=
  (insert_first l item).1

/-- List state after `insert_last` (always succeeds). -/
def applyInsertLast (l : DoublyLinkedBase α) (item : α) : DoublyLinkedBase α :=
  (insert_last l item).1

/-- List state after `insert_before`; a raised error leaves the list untouched,
since validation precedes every write. -/
def applyInsertBefore (l : DoublyLinkedBase α) (p : Position) (item : α) :
    DoublyLinkedBase α :=
  match insert_before l p item with
  | .ok r => r.1
  | .error _ => l

/-- List state after `insert_after`; a raised error leaves the list untouched. -/
def applyInsertAfter (l : DoublyLinkedBase α) (p : Position) (item : α) :
    DoublyLinkedBase α :=
  match insert_after l p item with
  | .ok r => r.1
  | .error _ => l

/-- List state after `remove`; a raised error leaves the list untouched. -/
def applyRemove (l : DoublyLinkedBase α) (p : Position) : DoublyLinkedBase α :=
  match remove l p with
  | .ok r => r.2
  | .error _ => l

/-- List state after `replace`; a raised error leaves the list untouched. -/
def applyReplace (l : DoublyLinkedBase α) (p : Position) (item : α) :
    DoublyLinkedBase α :=
  match replace l p item with
  | .ok r => r.2
  | .error _ => l

end PositionalList

/-- A position argument the validation rule must reject: its owning list is
not this list, or its node is deprecated. -/
def BadPosition (l : DoublyLinkedBase α) (p : Position) : Prop :=
  p.owner ≠ l.ident ∨ ∃ nd, l.getNode p.node = some nd ∧ nd.deprecated = true

/-- The id held by object `i`'s `next` field: the header's for `i = 0`, a
node's for `i ≥ 2`; the trailer has no `next` field. -/
def nextPtr (l : DoublyLinkedBase α) (i : Nat) : Option Nat :=
  if i = 0 then some l.headerNext
  else if i = 1 then none
  else (l.getNode i).map Node.next

/-- The id held by object `i`'s `prev` field: the trailer's for `i = 1`, a
node's for `i ≥ 2`; the header has no `prev` field. -/
def prevPtr (l : DoublyLinkedBase α) (i : Nat) : Option Nat :=
  if i = 1 then some l.trailerPrev
  else if i = 0 then none
  else (l.getNode i).map Node.prev

/-- Objects `a` and `b` are mutually linked: `a.next` is `b` and `b.prev`
is `a`. -/
def linked (l : DoublyLinkedBase α) (a b : Nat) : Prop :=
  nextPtr l a = some b ∧ prevPtr l b = some a

/-- Structural invariant of a `PositionalList` state: `c` lists the ids of
the live nodes in order.  The extended chain `0 :: c ++ [1]` is doubly
linked, ids are unique, exactly the chain's nodes are live (not deprecated),
the sentinels are not nodes (no heap entry has id `0` or `1`), all heap ids
are below the `fresh` counter, and `_size` equals the number of live
nodes. -/
structure Inv (l : DoublyLinkedBase α) (c : List Nat) : Prop where
  chain : List.Chain' (linked l) (0 :: c ++ [1])
  nodup : c.Nodup
  nodupKeys : (l.nodes.map Prod.fst).Nodup
  mem_live : ∀ i ∈ c, ∃ nd, l.getNode i = some nd ∧ nd.deprecated = false
  live_mem : ∀ i nd, l.getNode i = some nd → nd.deprecated = false → i ∈ c
  keys_range : ∀ i nd, l.getNode i = some nd → 2 ≤ i ∧ i < l.fresh
  fresh_ge : 2 ≤ l.fresh
  size_eq : l.size = (c.length : Int)

/-- A well-formed list state: some chain of live nodes satisfies `Inv`. -/
def WF (l : DoublyLinkedBase α) : Prop :=
  ∃ c, Inv l c

/-- List states reachable from a freshly constructed `PositionalList` by any
sequence of the six public mutating operations, called with arbitrary
`Position` arguments and items; a call that raises InvalidPosition leaves
the state unchanged. -/
inductive Reach {α : Type} : DoublyLinkedBase α → Prop where
  | empty (ident : Nat) : Reach (DoublyLinkedBase.empty α ident)
  | insert_first {l : DoublyLinkedBase α} (item : α) :
      Reach l → Reach (PositionalList.applyInsertFirst l item)
  | insert_last {l : DoublyLinkedBase α} (item : α) :
      Reach l → Reach (PositionalList.applyInsertLast l item)
  | insert_before {l : DoublyLinkedBase α} (p : Position) (item : α) :
      Reach l → Reach (PositionalList.applyInsertBefore l p item)
  | insert_after {l : DoublyLinkedBase α} (p : Position) (item : α) :
      Reach l → Reach (PositionalList.applyInsertAfter l p item)
  | remove {l : DoublyLinkedBase α} (p : Position) :
      Reach l → Reach (PositionalList.applyRemove l p)
  | replace {l : DoublyLinkedBase α} (p : Position) (item : α) :
      Reach l → Reach (PositionalList.applyReplace l p item)

/-- One `PositionalList` operation performed on a list state: any of the six
mutating operations with arbitrary arguments, or `clear`. -/
inductive Step1 {α : Type} : DoublyLinkedBase α → DoublyLinkedBase α → Prop where
  | insert_first (l : DoublyLinkedBase α) (item : α) :
      Step1 l (PositionalList.applyInsertFirst l item)
  | insert_last (l : DoublyLinkedBase α) (item : α) :
      Step1 l (PositionalList.applyInsertLast l item)
  | insert_before (l : DoublyLinkedBase α) (p : Position) (item : α) :
      Step1 l (PositionalList.applyInsertBefore l p item)
  | insert_after (l : DoublyLinkedBase α) (p : Position) (item : α) :
      Step1 l (PositionalList.applyInsertAfter l p item)
  | remove (l : DoublyLinkedBase α) (p : Position) :
      Step1 l (PositionalList.applyRemove l p)
  | replace (l : DoublyLinkedBase α) (p : Position) (item : α) :
      Step1 l (PositionalList.applyReplace l p item)
  | clear (l : DoublyLinkedBase α) : Step1 l l.clear

/-- Any finite sequence of `PositionalList` operations. -/
inductive Steps {α : Type} : DoublyLinkedBase α → DoublyLinkedBase α → Prop where
  | refl (l : DoublyLinkedBase α) : Steps l l
  | head {l m n : DoublyLinkedBase α} : Step1 l m → Steps m n → Steps l n

/-- Every heap id is below the `fresh` counter (ids are allocated from a
counter that only grows, so this holds on every state the code builds). -/
def KeysBound (l : DoublyLinkedBase α) : Prop :=
  ∀ i ∈ l.nodes.map Prod.fst, i < l.fresh

/-!
Sequence-level model of the two favourites lists and of `insertion_sort`.

Both of those clients drive a `PositionalList` exclusively through
`insert_first` / `insert_last` / `insert_before` / `insert_after` / `remove`
with positions they obtained from the list itself, so the list they hold is
faithfully described by its sequence of items, with positions identified by
their current index:

* `insert_before` at the node of index `i` splices the new item in at index
  `i`, shifting every node from index `i` on one place to the right;
* `insert_first` splices in at index `0`;
* `remove` at index `i` deletes the item at index `i`;
* `position_before` of index `i + 1` is index `i`, and is `None` at index 0;
* `position_after` of index `i` is `i + 1`, and is `None` at the last index;
* a `Position` held across an insertion at index `w ≤ i` keeps referencing
  the same node, whose index becomes `i + 1`.

An entry of a favourites list is modelled as the pair `(value, count)` of the
`_Item` stored in the node (`src/linked_list/favourites.py`).
-/

/-- Splice an item in at index `i`: the effect of `_insert` between the nodes
at indices `i - 1` and `i`. -/
def insertAt {β : Type} (l : List β) (i : Nat) (x : β) : List β :=
  l.take i ++ x :: l.drop i

/-- Splice the node at index `i` out: the effect of `_remove` on it. -/
def removeAt {β : Type} (l : List β) (i : Nat) : List β :=
  l.take i ++ l.drop (i + 1)

/-- `FavouritesList._find_position`: scan from the first position for the
first entry whose stored value equals the accessed value (`Position` walk
with `position_after`); `none` when the walk falls off the back. -/
def favFind {β : Type} [DecidableEq β] : List (β × Nat) → β → Option Nat
  | [], _ => none
  | e :: rest, v => if e.1 = v then some 0 else (favFind rest v).map (· + 1)

/-- Walker loop of `FavouritesList._move_up`: the argument is the walker's
current index; while the walker is not the first position and the
predecessor's count is strictly below the accessed entry's new count `c`,
the walker moves to the predecessor. -/
def favWalk {β : Type} (l : List (β × Nat)) (c : Nat) : Nat → Nat
  | 0 => 0
  | w + 1 =>
    match l[w]? with
    | some e => if e.2 < c then favWalk l c w else w + 1
    | none => w + 1

/-- `FavouritesList.access` after `_find_position`, with `i` the index of the
accessed entry (for a new value the entry `(v, 0)` was just appended at the
back, so `i` is the old length).  `position.item.count += 1` mutates the
shared `_Item`, making the entry at `i` equal to `(v, c)` with `c` one more
than before; `_move_up` then inserts that same `_Item` before the walker's
final position and removes the accessed node, whose index has shifted from
`i` to `i + 1` because the insertion happened at an index `≤ i`. -/
def favStep {β : Type} (l : List (β × Nat)) (i : Nat) : List (β × Nat) :=
  match l[i]? with
  | none => l
  | some e =>
    let c := e.2 + 1
    let l2 := l.set i (e.1, c)
    removeAt (insertAt l2 (favWalk l2 c i) (e.1, c)) (i + 1)

/-- `FavouritesList.access` with the frequency-ranked `_move_up`. -/
def favAccess {β : Type} [DecidableEq β] (l : List (β × Nat)) (v : β) :
    List (β × Nat) :=
  match favFind l v with
  | some i => favStep l i
  | none => favStep (l ++ [(v, 0)]) l.length

/-- `FavouritesListMTF._move_up` applied at index `i` after the increment:
reinsert the accessed `_Item` at the front, then remove the accessed node
(index shifted from `i` to `i + 1` by the front insertion). -/
def mtfStep {β : Type} (l : List (β × Nat)) (i : Nat) : List (β × Nat) :=
  match l[i]? with
  | none => l
  | some e =>
    let c := e.2 + 1
    let l2 := l.set i (e.1, c)
    removeAt (insertAt l2 0 (e.1, c)) (i + 1)

/-- `FavouritesListMTF.access`: the inherited `FavouritesList.access` with
the move-to-front `_move_up` override. -/
def mtfAccess {β : Type} [DecidableEq β] (l : List (β × Nat)) (v : β) :
    List (β × Nat) :=
  match favFind l v with
  | some i => mtfStep l i
  | none => mtfStep (l ++ [(v, 0)]) l.length

/-- Entry lists of a frequency-ranked `FavouritesList` reachable from the
empty list by a sequence of `access` calls. -/
inductive FavReach {β : Type} [DecidableEq β] : List (β × Nat) → Prop where
  | nil : FavReach []
  | access {l : List (β × Nat)} (v : β) : FavReach l → FavReach (favAccess l v)

/-- `FavouritesList.top`: the values the generator yields, paired with the
error that interrupts it, if any.  With `k` larger than the length, the
`IndexError` is raised before anything is yielded; otherwise the values of
the first `k` entries are yielded in list order. -/
def favTop {β : Type} (l : List (β × Nat)) (k : Nat) : List β × Option Err :=
  if l.length < k then ([], some .insufficientItems)
  else ((l.take k).map Prod.fst, none)

/-- Inner scan of one round of `FavouritesListMTF.top`: walk the clone from
index `idx` keeping the first entry whose count is strictly largest
(`highest`), carried as the pair (index, entry). -/
def bestOf {β : Type} : List (β × Nat) → Nat → Nat × (β × Nat) → Nat × (β × Nat)
  | [], _, best => best
  | e :: rest, idx, best =>
    if e.2 > best.2.2 then bestOf rest (idx + 1) (idx, e)
    else bestOf rest (idx + 1) best

/-- Rounds of `FavouritesListMTF.top`: `k` times, find the entry with the
largest count in the clone, yield its value and remove it from the clone;
if the clone is exhausted first (`first_position` is `None`), raise
`IndexError`.  Returns the yielded values and the interrupting error. -/
def mtfTopLoop {β : Type} : List (β × Nat) → Nat → List β → List β × Option Err
  | _, 0, acc => (acc.reverse, none)
  | clone, k + 1, acc =>
    match clone with
    | [] => (acc.reverse, some .insufficientItems)
    | h :: t =>
      let best := bestOf t 1 (0, h)
      mtfTopLoop (removeAt (h :: t) best.1) k (best.2.1 :: acc)

/-- `FavouritesListMTF.top`: clone the entry list (the clone shares the
`_Item` objects, so it has the same (value, count) pairs), then run the
rounds on the clone. -/
def mtfTop {β : Type} (l : List (β × Nat)) (k : Nat) : List β × Option Err :=
  mtfTopLoop l k []

/-- Python values appearing in the spec scenarios: strings such as
`"Python"` and ints such as `5`; Python `==` across the two kinds is
`False`, which is definitional equality on this sum. -/
inductive PyVal where
  | pyStr (s : String)
  | pyInt (n : Int)
deriving DecidableEq

/-- The value `"Python"`. -/
def pyP : PyVal := .pyStr "Python"

/-- The value `5`. -/
def py5 : PyVal := .pyInt 5

/-- Entry list of a move-to-front favourites list after
`access("Python"); access(5); access("Python"); access("Python")`. -/
def c9MTF : List (PyVal × Nat) :=
  mtfAccess (mtfAccess (mtfAccess (mtfAccess [] pyP) py5) pyP) pyP

/-- Entry list of a frequency-ranked favourites list after the same call
sequence. -/
def c9Freq : List (PyVal × Nat) :=
  favAccess (favAccess (favAccess (favAccess [] pyP) py5) pyP) pyP

/-- `x <= y` for `_Comparable` items: `__le__` defaults to
`self < other or self == other` (`src/linked_list/insertion_sort.py`);
`lt` models `<` and `beq` models Python `==`. -/
def pyLe {β : Type} (lt beq : β → β → Bool) (a b : β) : Bool :=
  lt a b || beq a b

/-- Walker loop of `insertion_sort`: the argument is the walker's current
index; while a predecessor exists (`position_before` is not `None`) and its
item is strictly greater than the pivot's item (Python evaluates
`before_walker.item > pivot.item` as the reflected `pivot.item <
before_walker.item`), the walker moves to the predecessor. -/
def sortWalk {β : Type} (lt : β → β → Bool) (l : List β) (pv : β) : Nat → Nat
  | 0 => 0
  | w + 1 =>
    match l[w]? with
    | some x => if lt pv x then sortWalk lt l pv w else w + 1
    | none => w + 1

/-- One iteration of the `insertion_sort` while-loop, with the marker at
index `m` and the pivot at index `m + 1`: if `marker.item <= pivot.item`
the list is untouched (the marker advances onto the pivot); otherwise the
pivot's item is inserted before the walker's final position `w ≤ m` and the
pivot's node — shifted to index `m + 2` by that insertion — is removed.
In both branches the node the marker must reference next ends up at index
`m + 1`, so the loop is driven by an index that increases by one. -/
def sortStep {β : Type} (lt beq : β → β → Bool) (l : List β) (m : Nat) : List β :=
  match l[m]?, l[m + 1]? with
  | some a, some pv =>
    if pyLe lt beq a pv then l
    else removeAt (insertAt l (sortWalk lt l pv m) pv) (m + 2)
  | _, _ => l

/-- The `insertion_sort` while-loop (`while (pivot := position_after marker)
is not None`).  The fuel only bounds the recursion: each iteration keeps the
length and moves the marker index up by one, so `l.length` is plenty. -/
def sortLoop {β : Type} (lt beq : β → β → Bool) : List β → Nat → Nat → List β
  | l, _, 0 => l
  | l, m, fuel + 1 =>
    if m + 1 < l.length then sortLoop lt beq (sortStep lt beq l m) (m + 1) fuel
    else l

/-- `insertion_sort` of `src/linked_list/insertion_sort.py`, parametrised by
the item comparisons: on an empty list `first_position` is `None` and the
function returns at once; otherwise the marker starts at the first position
(index `0`). -/
def insertion_sort {β : Type} (lt beq : β → β → Bool) (l : List β) : List β :=
  match l with
  | [] => []
  | _ :: _ => sortLoop lt beq l 0 l.length

/-- `insertion_sort` on items carrying a decidable linear order — the
intended instantiation (`<` and `==` of, e.g., Python ints). -/
def insertionSortLO {β : Type} [LinearOrder β] (l : List β) : List β :=
  insertion_sort (fun a b => decide (a < b)) (fun a b => decide (a = b)) l

/-- `insertion_sort` on key-tagged items that compare by key only: models
sorting items that compare equal without being identical.  The tag takes no
part in any comparison. -/
def insertionSortKeyed {κ : Type} [LinearOrder κ] (l : List (κ × Nat)) :
    List (κ × Nat) :=
  insertion_sort (fun a b => decide (a.1 < b.1)) (fun a b => decide (a.1 = b.1)) l

end LinkedList

open LinkedList

theorem validate_bad {α : Type} {l : DoublyLinkedBase α} {p : Position}
    (h : BadPosition l p) :
    PositionalList.validate l p = .error .invalidPosition := by
  unfold PositionalList.validate
  rcases h with h | ⟨nd, hnd, hdep⟩
  · simp [h]
  · by_cases ho : p.owner = l.ident
    · simp [ho, hnd, hdep]
    · simp [ho]

/-- C1: every `PositionalList` operation taking a `Position` argument
(`insert_before`, `insert_after`, `remove`, `replace`, `position_before`,
`position_after`) raises the InvalidPosition error (`ValueError`) whenever
the position's owning list is not this list or its node is retired, and the
check runs before any side effect: on such an error the list state (size,
node links, stored items) is unchanged. -/
theorem C1_invalid_position_rejected_before_any_effect
    {α : Type} (l : DoublyLinkedBase α) (p : Position) (item : α)
    (h : BadPosition l p) :
    PositionalList.insert_before l p item = .error .invalidPosition ∧
    PositionalList.insert_after l p item = .error .invalidPosition ∧
    PositionalList.remove l p = .error .invalidPosition ∧
    PositionalList.replace l p item = .error .invalidPosition ∧
    PositionalList.position_before l p = .error .invalidPosition ∧
    PositionalList.position_after l p = .error .invalidPosition ∧
    PositionalList.applyInsertBefore l p item = l ∧
    PositionalList.applyInsertAfter l p item = l ∧
    PositionalList.applyRemove l p = l ∧
    PositionalList.applyReplace l p item = l := by
  have hv := validate_bad h
  refine ⟨?_, ?_, ?_, ?_, ?_, ?_, ?_, ?_, ?_, ?_⟩ <;>
    simp [PositionalList.insert_before, PositionalList.insert_after,
      PositionalList.remove, PositionalList.replace,
      PositionalList.position_before, PositionalList.position_after,
      PositionalList.applyInsertBefore, PositionalList.applyInsertAfter,
      PositionalList.applyRemove, PositionalList.applyReplace, hv]

/-- Witness for C1 at a concrete input: a position owned by another list
(owner id `1`) is rejected by the empty list with id `0`. -/
theorem C1_witness :
    BadPosition (DoublyLinkedBase.empty Nat 0) ⟨2, 1⟩ ∧
    (PositionalList.insert_before (DoublyLinkedBase.empty Nat 0) ⟨2, 1⟩ 7
        = .error .invalidPosition ∧
      PositionalList.insert_after (DoublyLinkedBase.empty Nat 0) ⟨2, 1⟩ 7
        = .error .invalidPosition ∧
      PositionalList.remove (DoublyLinkedBase.empty Nat 0) ⟨2, 1⟩
        = .error .invalidPosition ∧
      PositionalList.replace (DoublyLinkedBase.empty Nat 0) ⟨2, 1⟩ 7
        = .error .invalidPosition ∧
      PositionalList.position_before (DoublyLinkedBase.empty Nat 0) ⟨2, 1⟩
        = .error .invalidPosition ∧
      PositionalList.position_after (DoublyLinkedBase.empty Nat 0) ⟨2, 1⟩
        = .error .invalidPosition ∧
      PositionalList.applyInsertBefore (DoublyLinkedBase.empty Nat 0) ⟨2, 1⟩ 7
        = DoublyLinkedBase.empty Nat 0 ∧
      PositionalList.applyInsertAfter (DoublyLinkedBase.empty Nat 0) ⟨2, 1⟩ 7
        = DoublyLinkedBase.empty Nat 0 ∧
      PositionalList.applyRemove (DoublyLinkedBase.empty Nat 0) ⟨2, 1⟩
        = DoublyLinkedBase.empty Nat 0 ∧
      PositionalList.applyReplace (DoublyLinkedBase.empty Nat 0) ⟨2, 1⟩ 7
        = DoublyLinkedBase.empty Nat 0) :=
  ⟨Or.inl (by decide),
    C1_invalid_position_rejected_before_any_effect
      (DoublyLinkedBase.empty Nat 0) ⟨2, 1⟩ 7 (Or.inl (by decide))⟩

/-- C7 (behaviour of the code at the failing input): `clear` does NOT retire
the nodes of the sequence.  A position obtained before `clear` still passes
`_validate` afterwards: `remove` on it succeeds, returns the stored item, and
drives the size down to `-1`, instead of raising InvalidPosition as the spec
requires. -/
theorem C7_clear_leaves_positions_usable :
    ((PositionalList.insert_first (DoublyLinkedBase.empty Int 0) 5).1.clear.getNode
        (PositionalList.insert_first (DoublyLinkedBase.empty Int 0) 5).2.node
      = some ⟨5, 0, 1, false⟩) ∧
    PositionalList.remove (PositionalList.insert_first (DoublyLinkedBase.empty Int 0) 5).1.clear
        (PositionalList.insert_first (DoublyLinkedBase.empty Int 0) 5).2
      = .ok (5, ⟨0, 1, 0, [(2, ⟨5, 0, 1, true⟩)], -1, 3⟩) := by
  constructor <;> rfl

/-! Generic helpers about `insertAt`, `removeAt`, slices and `Pairwise`. -/

theorem insertAt_length {β : Type} (l : List β) (i : Nat) (x : β) (h : i ≤ l.length) :
    (insertAt l i x).length = l.length + 1 := by
  simp only [insertAt, List.length_append, List.length_take, List.length_cons,
    List.length_drop]
  omega

theorem removeAt_length {β : Type} (l : List β) (i : Nat) (h : i < l.length) :
    (removeAt l i).length = l.length - 1 := by
  simp only [removeAt, List.length_append, List.length_take, List.length_drop]
  omega

theorem removeAt_cons_succ {β : Type} (x : β) (l : List β) (i : Nat) :
    removeAt (x :: l) (i + 1) = x :: removeAt l i := by
  simp [removeAt, List.take_succ_cons, List.drop_succ_cons]

theorem removeAt_insertAt {β : Type} (l : List β) (x : β) (w k : Nat)
    (hw : w ≤ k) (hk : k < l.length) :
    removeAt (insertAt l w x) (k + 1) =
      l.take w ++ x :: ((l.drop w).take (k - w) ++ l.drop (k + 1)) := by
  have hA : (l.take w).length = w := by
    simp only [List.length_take]
    omega
  have h1 : (l.take w ++ x :: l.drop w).take (k + 1)
      = l.take w ++ x :: (l.drop w).take (k - w) := by
    rw [List.take_append_eq_append_take, hA,
      List.take_of_length_le (by rw [hA]; omega)]
    congr 1
    have hkw : k + 1 - w = (k - w) + 1 := by omega
    rw [hkw, List.take_succ_cons]
  have h2 : (l.take w ++ x :: l.drop w).drop (k + 1 + 1) = l.drop (k + 1) := by
    rw [List.drop_append_eq_append_drop, hA,
      List.drop_eq_nil_of_le (by rw [hA]; omega)]
    have hkw : k + 2 - w = (k + 1 - w) + 1 := by omega
    rw [List.nil_append, hkw, List.drop_succ_cons, List.drop_drop]
    congr 1
    omega
  show (insertAt l w x).take (k + 1) ++ (insertAt l w x).drop (k + 1 + 1) = _
  rw [insertAt, h1, h2]
  simp [List.append_assoc]

theorem mem_take_idx {β : Type} {l : List β} {w : Nat} {a : β} (h : a ∈ l.take w) :
    ∃ j, j < w ∧ l[j]? = some a := by
  obtain ⟨j, hj, hget⟩ := List.mem_iff_getElem.1 h
  have hjl : j < l.length := by
    simp only [List.length_take] at hj
    omega
  have hjw : j < w := by
    simp only [List.length_take] at hj
    omega
  refine ⟨j, hjw, ?_⟩
  rw [List.getElem?_eq_getElem hjl, ← hget, List.getElem_take]

theorem mem_drop_idx {β : Type} {l : List β} {n : Nat} {b : β} (h : b ∈ l.drop n) :
    ∃ j, n ≤ j ∧ l[j]? = some b := by
  obtain ⟨j, hj, hget⟩ := List.mem_iff_getElem.1 h
  have hjl : n + j < l.length := by
    simp only [List.length_drop] at hj
    omega
  refine ⟨n + j, by omega, ?_⟩
  rw [List.getElem?_eq_getElem hjl, ← hget, List.getElem_drop]

theorem mem_slice_idx {β : Type} {l : List β} {w n : Nat} {b : β}
    (h : b ∈ (l.drop w).take n) :
    ∃ j, w ≤ j ∧ j < w + n ∧ l[j]? = some b := by
  obtain ⟨j, hjn, hget⟩ := mem_take_idx h
  refine ⟨w + j, by omega, by omega, ?_⟩
  have := List.getElem?_drop l w j
  rw [hget] at this
  exact this.symm

theorem pairwise_getElem? {β : Type} {R : β → β → Prop} {l : List β}
    (hp : l.Pairwise R) {i j : Nat} {a b : β}
    (hi : l[i]? = some a) (hj : l[j]? = some b) (hij : i < j) : R a b := by
  obtain ⟨hil, hia⟩ := List.getElem?_eq_some_iff.1 hi
  obtain ⟨hjl, hjb⟩ := List.getElem?_eq_some_iff.1 hj
  have := List.pairwise_iff_getElem.1 hp i j hil hjl hij
  rwa [hia, hjb] at this

theorem pairwise_assemble {β : Type} {R : β → β → Prop} {A S D : List β} {x : β}
    (hA : A.Pairwise R) (hS : S.Pairwise R) (hD : D.Pairwise R)
    (hAx : ∀ a ∈ A, R a x) (hAS : ∀ a ∈ A, ∀ b ∈ S, R a b)
    (hAD : ∀ a ∈ A, ∀ b ∈ D, R a b) (hxS : ∀ b ∈ S, R x b)
    (hxD : ∀ b ∈ D, R x b) (hSD : ∀ a ∈ S, ∀ b ∈ D, R a b) :
    (A ++ x :: (S ++ D)).Pairwise R := by
  rw [List.pairwise_append]
  refine ⟨hA, ?_, ?_⟩
  · rw [List.pairwise_cons]
    constructor
    · intro b hb
      rcases List.mem_append.1 hb with h | h
      exacts [hxS b h, hxD b h]
    · rw [List.pairwise_append]
      exact ⟨hS, hD, hSD⟩
  · intro a ha b hb
    rcases List.mem_cons.1 hb with rfl | hb2
    · exact hAx a ha
    · rcases List.mem_append.1 hb2 with h | h
      exacts [hAS a ha b h, hAD a ha b h]

theorem set_getElem?_ne {β : Type} (l : List β) (i j : Nat) (x : β) (h : i ≠ j) :
    (l.set i x)[j]? = l[j]? := by
  rw [List.getElem?_set]
  simp [h]

theorem take_set_of_le {β : Type} (l : List β) (i w : Nat) (x : β) (h : w ≤ i) :
    (l.set i x).take w = l.take w := by
  apply List.ext_getElem?
  intro n
  by_cases hn : n < w
  · rw [List.getElem?_take_of_lt hn, List.getElem?_take_of_lt hn,
      set_getElem?_ne _ _ _ _ (by omega)]
  · rw [List.getElem?_take, List.getElem?_take]
    simp [hn]

theorem drop_set_of_lt {β : Type} (l : List β) (i n : Nat) (x : β) (h : i < n) :
    (l.set i x).drop n = l.drop n := by
  apply List.ext_getElem?
  intro m
  rw [List.getElem?_drop, List.getElem?_drop, set_getElem?_ne _ _ _ _ (by omega)]

theorem slice_set_of_le {β : Type} (l : List β) (i w n : Nat) (x : β)
    (h : w + n ≤ i) :
    ((l.set i x).drop w).take n = (l.drop w).take n := by
  apply List.ext_getElem?
  intro m
  by_cases hm : m < n
  · rw [List.getElem?_take_of_lt hm, List.getElem?_take_of_lt hm,
      List.getElem?_drop, List.getElem?_drop, set_getElem?_ne _ _ _ _ (by omega)]
  · rw [List.getElem?_take, List.getElem?_take]
    simp [hm]

/-! Facts about `favFind`, `mtfStep` and `mtfTop`. -/

theorem favFind_spec {β : Type} [DecidableEq β] {l : List (β × Nat)} {v : β}
    {i : Nat} (h : favFind l v = some i) : ∃ cnt, l[i]? = some (v, cnt) := by
  induction l generalizing i with
  | nil => simp [favFind] at h
  | cons e rest ih =>
    by_cases he : e.1 = v
    · simp only [favFind, if_pos he, Option.some.injEq] at h
      subst h
      exact ⟨e.2, by simp [← he]⟩
    · simp only [favFind, if_neg he, Option.map_eq_some'] at h
      obtain ⟨i2, hi2, rfl⟩ := h
      obtain ⟨cnt, hcnt⟩ := ih hi2
      exact ⟨cnt, by simpa using hcnt⟩

theorem mtfStep_head {β : Type} {l : List (β × Nat)} {i : Nat} {v : β} {cnt : Nat}
    (h : l[i]? = some (v, cnt)) :
    (mtfStep l i).head? = some (v, cnt + 1) := by
  rw [mtfStep, h]
  have hins : insertAt (l.set i (v, cnt + 1)) 0 (v, cnt + 1)
      = (v, cnt + 1) :: l.set i (v, cnt + 1) := by
    simp [insertAt]
  simp only [hins, removeAt_cons_succ]
  rfl

theorem bestOf_fst_lt {β : Type} :
    ∀ (t : List (β × Nat)) (idx : Nat) (best : Nat × (β × Nat)),
      best.1 < idx → (bestOf t idx best).1 < idx + t.length := by
  intro t
  induction t with
  | nil =>
    intro idx best h
    simpa [bestOf] using h
  | cons e rest ih =>
    intro idx best h
    rw [bestOf]
    by_cases hc : e.2 > best.2.2
    · rw [if_pos hc]
      have := ih (idx + 1) (idx, e) (by omega)
      simpa [Nat.add_assoc, Nat.add_comm 1 rest.length] using this
    · rw [if_neg hc]
      have := ih (idx + 1) best (by omega)
      simpa [Nat.add_assoc, Nat.add_comm 1 rest.length] using this

theorem mtfTopLoop_short {β : Type} :
    ∀ (k : Nat) (clone : List (β × Nat)) (acc : List β), clone.length < k →
      (mtfTopLoop clone k acc).2 = some .insufficientItems ∧
      (mtfTopLoop clone k acc).1.length = acc.length + clone.length := by
  intro k
  induction k with
  | zero =>
    intro clone acc h
    exact absurd h (Nat.not_lt_zero _)
  | succ k ih =>
    intro clone acc h
    match clone with
    | [] => simp [mtfTopLoop]
    | h0 :: t =>
      rw [mtfTopLoop]
      have hbest : (bestOf t 1 (0, h0)).1 < (h0 :: t).length := by
        have := bestOf_fst_lt t 1 (0, h0) (by omega)
        simp only [List.length_cons]
        omega
      have hlen : (removeAt (h0 :: t) (bestOf t 1 (0, h0)).1).length
          = (h0 :: t).length - 1 := removeAt_length _ _ hbest
      have hrec := ih (removeAt (h0 :: t) (bestOf t 1 (0, h0)).1)
        ((bestOf t 1 (0, h0)).2.1 :: acc)
        (by rw [hlen]; simp only [List.length_cons] at h ⊢; omega)
      refine ⟨hrec.1, ?_⟩
      rw [hrec.2, hlen]
      simp only [List.length_cons]
      omega

/-- C5: on a move-to-front `FavouritesListMTF`, immediately after `access(x)`
completes, `x` is the value of the first entry of the underlying positional
list, regardless of `x`'s access counter relative to the other entries'
counters (the counter of the front entry is whatever `x`'s incremented
counter happens to be). -/
theorem C5_mtf_access_puts_value_first {β : Type} [DecidableEq β]
    (l : List (β × Nat)) (v : β) :
    ∃ c, (mtfAccess l v).head? = some (v, c) := by
  rw [mtfAccess]
  cases h : favFind l v with
  | some i =>
    obtain ⟨cnt, hget⟩ := favFind_spec h
    exact ⟨cnt + 1, mtfStep_head hget⟩
  | none =>
    have hget : (l ++ [(v, 0)])[l.length]? = some (v, 0) :=
      List.getElem?_concat_length l (v, 0)
    exact ⟨1, mtfStep_head hget⟩

/-- C9 counterexample: after `access("Python"); access(5); access("Python");
access("Python")` on an empty move-to-front favourites list, the entry list
front-to-back is `[("Python", 3), (5, 1)]` — not `[(5, 1), ("Python", 3)]`
as the claim states. -/
theorem C9_counterexample_mtf_order :
    c9MTF = [(pyP, 3), (py5, 1)] ∧ c9MTF ≠ [(py5, 1), (pyP, 3)] := by
  constructor
  · rfl
  · intro h
    exact absurd (congrArg (fun l => l.head?) h) (by decide)

/-- C9 amended: after that access sequence the move-to-front list is
`[("Python", 3), (5, 1)]` front-to-back (front = most recently accessed),
and each value's counter is identical to its counter under the
frequency-ranked policy after the same sequence (which also yields
`[("Python", 3), (5, 1)]`). -/
theorem C9_amended_mtf_scenario :
    c9MTF = [(pyP, 3), (py5, 1)] ∧ c9Freq = [(pyP, 3), (py5, 1)] := by
  constructor <;> rfl

/-- C8 counterexample: `top(3)` on the 2-entry move-to-front favourites list
`[(0, 1), (1, 2)]` yields both stored values (largest counter first) and
only then raises the `IndexError`; it does not fail before yielding. -/
theorem C8_counterexample_mtf_top_yields_before_error :
    mtfTop [((0 : Nat), 1), (1, 2)] 3 = ([1, 0], some .insufficientItems) ∧
    (mtfTop [((0 : Nat), 1), (1, 2)] 3).1 ≠ [] := by
  constructor <;> decide

/-- C8 amended: when `top(k)` is called with `k` greater than the number of
entries, the frequency-ranked `FavouritesList.top` raises the
InsufficientItems error (`IndexError`) before yielding any value, while the
move-to-front `FavouritesListMTF.top` yields one value per available entry
and only then raises the same error. -/
theorem C8_amended_top_with_too_large_k {β : Type} (l : List (β × Nat)) (k : Nat)
    (h : l.length < k) :
    favTop l k = ([], some .insufficientItems) ∧
    (mtfTop l k).2 = some .insufficientItems ∧
    (mtfTop l k).1.length = l.length := by
  refine ⟨by simp [favTop, h], ?_, ?_⟩
  · exact (mtfTopLoop_short k l [] h).1
  · have := (mtfTopLoop_short k l [] h).2
    simpa [mtfTop] using this

/-- Witness for the amended C8 at a concrete input: a 1-entry list and
`k = 2`. -/
theorem C8_amended_witness :
    ([((7 : Nat), 1)] : List (Nat × Nat)).length < 2 ∧
    (favTop [((7 : Nat), 1)] 2 = ([], some .insufficientItems) ∧
      (mtfTop [((7 : Nat), 1)] 2).2 = some .insufficientItems ∧
      (mtfTop [((7 : Nat), 1)] 2).1.length = [((7 : Nat), 1)].length) :=
  ⟨by decide, C8_amended_top_with_too_large_k [((7 : Nat), 1)] 2 (by decide)⟩

/-! Correctness of `insertion_sort`. -/

theorem sortWalk_le {β : Type} (lt : β → β → Bool) (l : List β) (pv : β) :
    ∀ m, sortWalk lt l pv m ≤ m := by
  intro m
  induction m with
  | zero => simp [sortWalk]
  | succ w ih =>
    rw [sortWalk]
    cases h : l[w]? with
    | none => simp
    | some x =>
      by_cases hc : lt pv x
      · simp only [hc, if_true]
        omega
      · simp [hc]

theorem sortWalk_region {β : Type} (lt : β → β → Bool) (l : List β) (pv : β) :
    ∀ m j, sortWalk lt l pv m ≤ j → j < m → ∃ x, l[j]? = some x ∧ lt pv x = true := by
  intro m
  induction m with
  | zero =>
    intro j _ hj
    exact absurd hj (Nat.not_lt_zero _)
  | succ w ih =>
    intro j hle hj
    rw [sortWalk] at hle
    cases h : l[w]? with
    | none =>
      rw [h] at hle
      simp at hle
      omega
    | some x =>
      rw [h] at hle
      by_cases hc : lt pv x
      · simp only [hc, if_true] at hle
        by_cases hjw : j = w
        · exact ⟨x, hjw ▸ h, hc⟩
        · exact ih j hle (by omega)
      · simp [hc] at hle
        omega

theorem sortWalk_stop {β : Type} (lt : β → β → Bool) (l : List β) (pv : β) :
    ∀ m, m ≤ l.length →
      sortWalk lt l pv m = 0 ∨
      ∃ x, l[sortWalk lt l pv m - 1]? = some x ∧ lt pv x = false := by
  intro m
  induction m with
  | zero => intro _; exact Or.inl rfl
  | succ w ih =>
    intro hm
    rw [sortWalk]
    have hwlen : w < l.length := by omega
    cases h : l[w]? with
    | none =>
      exact absurd h (by simp [List.getElem?_eq_getElem hwlen])
    | some x =>
      by_cases hc : lt pv x
      · simp only [hc, if_true]
        exact ih (by omega)
      · simp only [hc, if_false]
        right
        refine ⟨x, ?_, by simpa using hc⟩
        simpa using h

theorem take_rel_of_pairwise {β : Type} {R : β → β → Prop}
    (htrans : ∀ a b c, R a b → R b c → R a c)
    {l : List β} (hp : l.Pairwise R) {k : Nat} {s : β} (hk : l[k]? = some s)
    {x : β} (hsx : R s x) : ∀ a ∈ l.take (k + 1), R a x := by
  intro a ha
  obtain ⟨j, hj, hget⟩ := mem_take_idx ha
  by_cases hjk : j = k
  · subst hjk
    rw [hget] at hk
    cases hk
    exact hsx
  · exact htrans _ _ _ (pairwise_getElem? hp hget hk (by omega)) hsx

theorem sortStep_length {β : Type} (lt beq : β → β → Bool) (l : List β) (m : Nat) :
    (sortStep lt beq l m).length = l.length := by
  rw [sortStep]
  cases ha : l[m]? with
  | none => rfl
  | some a =>
    cases hb : l[m + 1]? with
    | none => rfl
    | some pv =>
      by_cases hle : pyLe lt beq a pv
      · simp [hle]
      · simp only [hle, if_false, Bool.false_eq_true]
        have hm1 : m + 1 < l.length := (List.getElem?_eq_some_iff.1 hb).1
        have hw : sortWalk lt l pv m ≤ m := sortWalk_le lt l pv m
        rw [removeAt_length _ _ (by rw [insertAt_length l _ _ (by omega)]; omega),
          insertAt_length l _ _ (by omega)]
        omega

theorem sortStep_spec {β : Type} {lt beq : β → β → Bool}
    (H1 : ∀ a b, lt a b = true → lt b a = false)
    (H2 : ∀ a b, beq a b = true → lt b a = false)
    (H3 : ∀ a b c, lt b a = false → lt c b = false → lt c a = false)
    {l : List β} {m : Nat} (hm : m + 1 < l.length)
    (hpref : (l.take (m + 1)).Pairwise fun a b => lt b a = false) :
    (sortStep lt beq l m).Perm l ∧
    ((sortStep lt beq l m).take (m + 2)).Pairwise fun a b => lt b a = false := by
  have htrans : ∀ a b c : β, lt b a = false → lt c b = false → lt c a = false := H3
  have hml : m < l.length := by omega
  have ha : l[m]? = some l[m] := List.getElem?_eq_getElem hml
  have hb : l[m + 1]? = some l[m + 1] := List.getElem?_eq_getElem hm
  have hred : sortStep lt beq l m =
      if pyLe lt beq l[m] l[m + 1] = true then l
      else removeAt (insertAt l (sortWalk lt l l[m + 1] m) l[m + 1]) (m + 2) := by
    simp only [sortStep, ha, hb]
  rw [hred]
  by_cases hle : pyLe lt beq l[m] l[m + 1] = true
  · rw [if_pos hle]
    refine ⟨List.Perm.refl l, ?_⟩
    have htake : l.take (m + 2) = l.take (m + 1) ++ [l[m + 1]] := by
      rw [List.take_succ, hb]
      rfl
    rw [htake, List.pairwise_append]
    refine ⟨hpref, List.pairwise_singleton _ _, ?_⟩
    intro a' ha' b' hb'
    rw [List.mem_singleton] at hb'
    subst hb'
    have hRm : lt l[m + 1] l[m] = false := by
      rw [pyLe, Bool.or_eq_true] at hle
      rcases hle with h | h
      · exact H1 _ _ h
      · exact H2 _ _ h
    have hk : (l.take (m + 1))[m]? = some l[m] := by
      rw [List.getElem?_take_of_lt (by omega), ha]
    have := take_rel_of_pairwise htrans hpref hk hRm a'
    rw [List.take_take] at this
    exact this (by simpa using ha')
  · rw [if_neg hle]
    rw [pyLe, Bool.or_eq_true] at hle
    push_neg at hle
    obtain ⟨hlt0, hbeq0⟩ : lt l[m] l[m + 1] = false ∧ beq l[m] l[m + 1] = false := by
      constructor
      · exact Bool.not_eq_true _ ▸ hle.1
      · exact Bool.not_eq_true _ ▸ hle.2
    have hwle : sortWalk lt l l[m + 1] m ≤ m := sortWalk_le lt l l[m + 1] m
    rw [removeAt_insertAt l l[m + 1] (sortWalk lt l l[m + 1] m) (m + 1) (by omega) hm]
    set w := sortWalk lt l l[m + 1] m with hwdef
    have hAeq : (l.take (m + 1)).take w = l.take w := by
      rw [List.take_take, Nat.min_eq_left (by omega)]
    have hSeq : (l.take (m + 1)).drop w = (l.drop w).take (m + 1 - w) := by
      rw [List.drop_take]
    have hA : (l.take w).Pairwise fun a b => lt b a = false := by
      rw [← hAeq]
      exact hpref.sublist (List.take_sublist _ _)
    have hS : ((l.drop w).take (m + 1 - w)).Pairwise fun a b => lt b a = false := by
      rw [← hSeq]
      exact hpref.sublist (List.drop_sublist _ _)
    have hAS : ∀ a ∈ l.take w, ∀ b ∈ (l.drop w).take (m + 1 - w), lt b a = false := by
      have hsplit : l.take (m + 1) = l.take w ++ (l.drop w).take (m + 1 - w) := by
        rw [← hAeq, ← hSeq, List.take_append_drop]
      rw [hsplit, List.pairwise_append] at hpref
      exact hpref.2.2
    have hxS : ∀ b ∈ (l.drop w).take (m + 1 - w), lt b l[m + 1] = false := by
      intro b hbmem
      obtain ⟨j, hjw, hjm, hget⟩ := mem_slice_idx hbmem
      have hjm1 : j < m + 1 := by omega
      by_cases hjm2 : j = m
      · subst hjm2
        rw [ha] at hget
        cases hget
        exact hlt0
      · obtain ⟨x, hx, hltx⟩ := sortWalk_region lt l l[m + 1] m j (by rw [← hwdef]; omega)
          (by omega)
        rw [hx] at hget
        cases hget
        exact H1 _ _ hltx
    have hAx : ∀ a ∈ l.take w, lt l[m + 1] a = false := by
      rcases sortWalk_stop lt l l[m + 1] m (by omega) with h0 | ⟨s, hs, hstop⟩
      · rw [← hwdef] at h0
        rw [h0]
        intro a hmem
        simp at hmem
      · rw [← hwdef] at hs
        by_cases hw0 : w = 0
        · rw [hw0]
          intro a hmem
          simp at hmem
        · have hk : (l.take (m + 1))[w - 1]? = some s := by
            rw [List.getElem?_take_of_lt (by omega)]
            exact hs
          have := take_rel_of_pairwise htrans hpref hk hstop
          rw [List.take_take] at this
          intro a hmem
          have hw1 : w - 1 + 1 = w := by omega
          have hmin : min (w - 1 + 1) (m + 1) = w := by omega
          rw [hmin] at this
          exact this a hmem
    constructor
    · have hdecomp : l = l.take w ++
          ((l.drop w).take (m + 1 - w) ++ l[m + 1] :: l.drop (m + 2)) := by
        conv_lhs => rw [← List.take_append_drop w l]
        congr 1
        conv_lhs => rw [← List.take_append_drop (m + 1 - w) (l.drop w)]
        congr 1
        rw [List.drop_drop]
        have hsum : w + (m + 1 - w) = m + 1 := by omega
        rw [hsum, List.drop_eq_getElem_cons hm]
      conv_rhs => rw [hdecomp]
      exact List.Perm.append_left _ List.perm_middle.symm
    · have hAlen : (l.take w).length = w := by
        simp only [List.length_take]
        omega
      have hSlen : ((l.drop w).take (m + 1 - w)).length = m + 1 - w := by
        simp only [List.length_take, List.length_drop]
        omega
      have htake2 : (l.take w ++ l[m + 1] ::
            ((l.drop w).take (m + 1 - w) ++ l.drop (m + 2))).take (m + 2)
          = l.take w ++ l[m + 1] :: ((l.drop w).take (m + 1 - w) ++ []) := by
        rw [List.take_append_eq_append_take, hAlen,
          List.take_of_length_le (by rw [hAlen]; omega)]
        congr 1
        have hm2w : m + 2 - w = (m + 1 - w) + 1 := by omega
        rw [hm2w, List.take_succ_cons]
        congr 1
        rw [List.take_append_eq_append_take, hSlen,
          List.take_of_length_le hSlen.le]
        have hz : m + 1 - w - (m + 1 - w) = 0 := by omega
        rw [hz]
        rfl
      rw [htake2]
      exact pairwise_assemble hA hS (List.Pairwise.nil)
        hAx hAS (by intro a _ b hb; simp at hb) hxS
        (by intro b hb; simp at hb) (by intro a _ b hb; simp at hb)

theorem sortLoop_spec {β : Type} {lt beq : β → β → Bool}
    (H1 : ∀ a b, lt a b = true → lt b a = false)
    (H2 : ∀ a b, beq a b = true → lt b a = false)
    (H3 : ∀ a b c, lt b a = false → lt c b = false → lt c a = false) :
    ∀ (fuel : Nat) (l : List β) (m : Nat), m < l.length → l.length ≤ m + 1 + fuel →
      (l.take (m + 1)).Pairwise (fun a b => lt b a = false) →
      (sortLoop lt beq l m fuel).Perm l ∧
      (sortLoop lt beq l m fuel).Pairwise fun a b => lt b a = false := by
  intro fuel
  induction fuel with
  | zero =>
    intro l m hm hlen hpref
    rw [sortLoop]
    rw [List.take_of_length_le (by omega)] at hpref
    exact ⟨List.Perm.refl l, hpref⟩
  | succ fuel ih =>
    intro l m hm hlen hpref
    rw [sortLoop]
    by_cases hcond : m + 1 < l.length
    · rw [if_pos hcond]
      have hspec := sortStep_spec H1 H2 H3 hcond hpref
      have hlen2 : (sortStep lt beq l m).length = l.length := sortStep_length lt beq l m
      have hrec := ih (sortStep lt beq l m) (m + 1) (by omega) (by omega) hspec.2
      exact ⟨hrec.1.trans hspec.1, hrec.2⟩
    · rw [if_neg hcond]
      rw [List.take_of_length_le (by omega)] at hpref
      exact ⟨List.Perm.refl l, hpref⟩

theorem insertion_sort_spec {β : Type} {lt beq : β → β → Bool}
    (H1 : ∀ a b, lt a b = true → lt b a = false)
    (H2 : ∀ a b, beq a b = true → lt b a = false)
    (H3 : ∀ a b c, lt b a = false → lt c b = false → lt c a = false)
    (l : List β) :
    (insertion_sort lt beq l).Perm l ∧
    (insertion_sort lt beq l).Pairwise fun a b => lt b a = false := by
  match l with
  | [] => exact ⟨List.Perm.refl [], List.Pairwise.nil⟩
  | x :: xs =>
    rw [insertion_sort]
    apply sortLoop_spec H1 H2 H3 (x :: xs).length (x :: xs) 0 (by simp) (by omega)
    have : (x :: xs).take 1 = [x] := by simp
    rw [this]
    exact List.pairwise_singleton _ _

/-- C6: for every positional list of elements with a total order,
`insertion_sort` leaves the list in non-decreasing element order and the
resulting item sequence is a permutation (same multiset) of the input; in
particular, sorting the list `[2, 6, 1, 8, -10]` yields
`[-10, 1, 2, 6, 8]`. -/
theorem C6_insertion_sort_sorts_and_permutes :
    (∀ (β : Type) [LinearOrder β] (l : List β),
      List.Sorted (· ≤ ·) (insertionSortLO l) ∧ (insertionSortLO l).Perm l) ∧
    insertionSortLO [(2 : Int), 6, 1, 8, -10] = [-10, 1, 2, 6, 8] := by
  constructor
  · intro β _inst l
    have H1 : ∀ a b : β, decide (a < b) = true → decide (b < a) = false := by
      intro a b h
      rw [decide_eq_true_eq] at h
      rw [decide_eq_false_iff_not]
      exact not_lt.2 h.le
    have H2 : ∀ a b : β, decide (a = b) = true → decide (b < a) = false := by
      intro a b h
      rw [decide_eq_true_eq] at h
      subst h
      rw [decide_eq_false_iff_not]
      exact lt_irrefl a
    have H3 : ∀ a b c : β, decide (b < a) = false → decide (c < b) = false →
        decide (c < a) = false := by
      intro a b c hba hcb
      rw [decide_eq_false_iff_not, not_lt] at hba hcb
      rw [decide_eq_false_iff_not, not_lt]
      exact hba.trans hcb
    have hspec := insertion_sort_spec H1 H2 H3 l
    refine ⟨?_, hspec.1⟩
    exact hspec.2.imp fun h => by
      rw [decide_eq_false_iff_not, not_lt] at h
      exact h
  · rfl

/-- Per-step stability of the key-ordered sort: one iteration of the loop
never changes the subsequence of entries carrying any fixed key `k`,
because the pivot only jumps over entries with strictly greater keys. -/
theorem sortStep_filter_keyed {κ : Type} [LinearOrder κ]
    (l : List (κ × Nat)) (m : Nat) (k : κ) :
    (sortStep (fun a b => decide (a.1 < b.1)) (fun a b => decide (a.1 = b.1)) l m).filter
        (fun e => decide (e.1 = k))
      = l.filter fun e => decide (e.1 = k) := by
  cases ha : l[m]? with
  | none => rw [sortStep, ha]
  | some a =>
    cases hb : l[m + 1]? with
    | none => rw [sortStep, ha, hb]
    | some pv =>
      have hred : sortStep (fun a b => decide (a.1 < b.1))
            (fun a b => decide (a.1 = b.1)) l m =
          if pyLe (fun a b => decide (a.1 < b.1)) (fun a b => decide (a.1 = b.1)) a pv
              = true then l
          else removeAt
            (insertAt l (sortWalk (fun a b => decide (a.1 < b.1)) l pv m) pv)
            (m + 2) := by
        simp only [sortStep, ha, hb]
      rw [hred]
      by_cases hle : pyLe (fun a b => decide (a.1 < b.1))
          (fun a b => decide (a.1 = b.1)) a pv = true
      · rw [if_pos hle]
      · rw [if_neg hle]
        rw [pyLe, Bool.or_eq_true] at hle
        push_neg at hle
        have hbeq0 : decide (a.1 = pv.1) = false := Bool.not_eq_true _ ▸ hle.2
        have hm1 : m + 1 < l.length := (List.getElem?_eq_some_iff.1 hb).1
        have hml : m < l.length := by omega
        have hwle : sortWalk (fun a b => decide (a.1 < b.1)) l pv m ≤ m :=
          sortWalk_le _ l pv m
        rw [removeAt_insertAt l pv _ (m + 1) (by omega) hm1]
        set w := sortWalk (fun a b => decide (a.1 < b.1)) l pv m with hwdef
        have hdecomp : l = l.take w ++
            ((l.drop w).take (m + 1 - w) ++ pv :: l.drop (m + 2)) := by
          conv_lhs => rw [← List.take_append_drop w l]
          congr 1
          conv_lhs => rw [← List.take_append_drop (m + 1 - w) (l.drop w)]
          congr 1
          rw [List.drop_drop]
          have hsum : w + (m + 1 - w) = m + 1 := by omega
          rw [hsum, List.drop_eq_getElem_cons hm1]
          rw [(List.getElem?_eq_some_iff.1 hb).2]
        have hSk : ∀ b ∈ (l.drop w).take (m + 1 - w), decide (b.1 = k) = true →
            decide (pv.1 = k) = false := by
          intro b hbmem hbk
          rw [decide_eq_true_eq] at hbk
          obtain ⟨j, hjw, hjm, hget⟩ := mem_slice_idx hbmem
          by_cases hjm2 : j = m
          · subst hjm2
            rw [ha] at hget
            cases hget
            rw [decide_eq_false_iff_not] at hbeq0 ⊢
            intro hpk
            exact hbeq0 (by rw [← hbk] at hpk; exact hpk.symm)
          · obtain ⟨x, hx, hltx⟩ := sortWalk_region _ l pv m j (by rw [← hwdef]; omega)
              (by omega)
            rw [hx] at hget
            cases hget
            rw [decide_eq_true_eq] at hltx
            rw [decide_eq_false_iff_not]
            intro hpk
            rw [hbk, ← hpk] at hltx
            exact lt_irrefl _ hltx
        conv_rhs => rw [hdecomp]
        by_cases hp : decide (pv.1 = k) = true
        · have hfS : ((l.drop w).take (m + 1 - w)).filter (fun e => decide (e.1 = k))
              = [] := by
            rw [List.filter_eq_nil_iff]
            intro b hbmem hbk
            have hcontra := hSk b hbmem hbk
            rw [hp] at hcontra
            exact Bool.true_eq_false.mp hcontra
          simp [List.filter_append, List.filter_cons, hp, hfS]
        · rw [Bool.not_eq_true] at hp
          simp [List.filter_append, List.filter_cons, hp]

theorem sortLoop_filter_keyed {κ : Type} [LinearOrder κ] :
    ∀ (fuel : Nat) (l : List (κ × Nat)) (m : Nat) (k : κ),
      (sortLoop (fun a b => decide (a.1 < b.1)) (fun a b => decide (a.1 = b.1))
          l m fuel).filter (fun e => decide (e.1 = k))
        = l.filter fun e => decide (e.1 = k) := by
  intro fuel
  induction fuel with
  | zero =>
    intro l m k
    rw [sortLoop]
  | succ fuel ih =>
    intro l m k
    rw [sortLoop]
    by_cases hcond : m + 1 < l.length
    · rw [if_pos hcond, ih, sortStep_filter_keyed]
    · rw [if_neg hcond]

/-- C10: `insertion_sort` is stable: for every input list, elements that
compare equal keep their original relative order — the backward walk stops
at the first predecessor not strictly greater than the pivot, so a moved
pivot is reinserted after every element equal to it.  Stability is stated
for key-tagged items compared by key alone: the subsequence carrying any
fixed key is unchanged, while the output is ordered by key. -/
theorem C10_insertion_sort_is_stable :
    ∀ (κ : Type) [LinearOrder κ] (l : List (κ × Nat)) (k : κ),
      (insertionSortKeyed l).filter (fun e => decide (e.1 = k))
          = l.filter (fun e => decide (e.1 = k)) ∧
      (insertionSortKeyed l).Pairwise fun a b => a.1 ≤ b.1 := by
  intro κ _inst l k
  constructor
  · match l with
    | [] => rfl
    | x :: xs =>
      rw [insertionSortKeyed, insertion_sort]
      exact sortLoop_filter_keyed (x :: xs).length (x :: xs) 0 k
  · have H1 : ∀ a b : κ × Nat, decide (a.1 < b.1) = true →
        decide (b.1 < a.1) = false := by
      intro a b h
      rw [decide_eq_true_eq] at h
      rw [decide_eq_false_iff_not]
      exact not_lt.2 h.le
    have H2 : ∀ a b : κ × Nat, decide (a.1 = b.1) = true →
        decide (b.1 < a.1) = false := by
      intro a b h
      rw [decide_eq_true_eq] at h
      rw [decide_eq_false_iff_not, h]
      exact lt_irrefl _
    have H3 : ∀ a b c : κ × Nat, decide (b.1 < a.1) = false →
        decide (c.1 < b.1) = false → decide (c.1 < a.1) = false := by
      intro a b c hba hcb
      rw [decide_eq_false_iff_not, not_lt] at hba hcb
      rw [decide_eq_false_iff_not, not_lt]
      exact hba.trans hcb
    have hspec := insertion_sort_spec H1 H2 H3 l
    exact hspec.2.imp fun h => by
      rw [decide_eq_false_iff_not, not_lt] at h
      exact h

/-! Ordering invariant of the frequency-ranked favourites list. -/

theorem favWalk_le {β : Type} (l : List (β × Nat)) (c : Nat) :
    ∀ i, favWalk l c i ≤ i := by
  intro i
  induction i with
  | zero => simp [favWalk]
  | succ w ih =>
    rw [favWalk]
    cases h : l[w]? with
    | none => simp
    | some e =>
      by_cases hc : e.2 < c
      · simp only [hc, if_true]
        omega
      · simp [hc]

theorem favWalk_region {β : Type} (l : List (β × Nat)) (c : Nat) :
    ∀ i j, favWalk l c i ≤ j → j < i → ∃ e, l[j]? = some e ∧ e.2 < c := by
  intro i
  induction i with
  | zero =>
    intro j _ hj
    exact absurd hj (Nat.not_lt_zero _)
  | succ w ih =>
    intro j hle hj
    rw [favWalk] at hle
    cases h : l[w]? with
    | none =>
      rw [h] at hle
      simp at hle
      omega
    | some e =>
      rw [h] at hle
      by_cases hc : e.2 < c
      · simp only [hc, if_true] at hle
        by_cases hjw : j = w
        · exact ⟨e, hjw ▸ h, hc⟩
        · exact ih j hle (by omega)
      · simp [hc] at hle
        omega

theorem favWalk_stop {β : Type} (l : List (β × Nat)) (c : Nat) :
    ∀ i, i ≤ l.length →
      favWalk l c i = 0 ∨
      ∃ e, l[favWalk l c i - 1]? = some e ∧ c ≤ e.2 := by
  intro i
  induction i with
  | zero => intro _; exact Or.inl rfl
  | succ w ih =>
    intro hi
    rw [favWalk]
    have hwlen : w < l.length := by omega
    cases h : l[w]? with
    | none =>
      exact absurd h (by simp [List.getElem?_eq_getElem hwlen])
    | some e =>
      by_cases hc : e.2 < c
      · simp only [hc, if_true]
        exact ih (by omega)
      · simp only [hc, if_false]
        right
        refine ⟨e, ?_, by omega⟩
        simpa using h

theorem favStep_sorted {β : Type} {l : List (β × Nat)} {i : Nat} {e : β × Nat}
    (hget : l[i]? = some e)
    (hsorted : l.Pairwise fun a b => b.2 ≤ a.2)
    (hdrop : ∀ x ∈ l.drop (i + 1), x.2 ≤ e.2) :
    (favStep l i).Pairwise fun a b => b.2 ≤ a.2 := by
  have htrans : ∀ a b c : β × Nat, b.2 ≤ a.2 → c.2 ≤ b.2 → c.2 ≤ a.2 := by
    intro a b c h1 h2
    omega
  have hil : i < l.length := (List.getElem?_eq_some_iff.1 hget).1
  have hred : favStep l i = removeAt
      (insertAt (l.set i (e.1, e.2 + 1))
        (favWalk (l.set i (e.1, e.2 + 1)) (e.2 + 1) i) (e.1, e.2 + 1)) (i + 1) := by
    simp only [favStep, hget]
  rw [hred]
  set l2 := l.set i (e.1, e.2 + 1) with hl2
  set c := e.2 + 1 with hc
  set w := favWalk l2 c i with hwdef
  have hwle : w ≤ i := favWalk_le l2 c i
  have hl2len : l2.length = l.length := by
    rw [hl2, List.length_set]
  rw [removeAt_insertAt l2 (e.1, c) w i hwle (by omega)]
  have hAconv : l2.take w = l.take w := take_set_of_le l i w (e.1, c) hwle
  have hSconv : (l2.drop w).take (i - w) = (l.drop w).take (i - w) :=
    slice_set_of_le l i w (i - w) (e.1, c) (by omega)
  have hDconv : l2.drop (i + 1) = l.drop (i + 1) :=
    drop_set_of_lt l i (i + 1) (e.1, c) (by omega)
  rw [hAconv, hSconv, hDconv]
  have hA : (l.take w).Pairwise fun a b => b.2 ≤ a.2 :=
    hsorted.sublist (List.take_sublist _ _)
  have hSsub : List.Sublist ((l.drop w).take (i - w)) l := by
    rw [← List.drop_take]
    exact ((l.take i).drop_sublist w).trans (List.take_sublist _ _)
  have hS : ((l.drop w).take (i - w)).Pairwise fun a b => b.2 ≤ a.2 :=
    hsorted.sublist hSsub
  have hD : (l.drop (i + 1)).Pairwise fun a b => b.2 ≤ a.2 :=
    hsorted.sublist (List.drop_sublist _ _)
  have hAx : ∀ a ∈ l.take w, c ≤ a.2 := by
    rcases favWalk_stop l2 c i (by omega) with h0 | ⟨s, hs, hstop⟩
    · rw [← hwdef] at h0
      rw [h0]
      intro a hmem
      simp at hmem
    · rw [← hwdef] at hs
      by_cases hw0 : w = 0
      · rw [hw0]
        intro a hmem
        simp at hmem
      · have hsl : l[w - 1]? = some s := by
          rw [← hs, hl2]
          exact (set_getElem?_ne l i (w - 1) (e.1, c) (by omega)).symm
        have hconc := take_rel_of_pairwise htrans hsorted hsl
          (x := (e.1, c)) (by simpa using hstop)
        intro a hmem
        have hw1 : w - 1 + 1 = w := by omega
        rw [hw1] at hconc
        exact hconc a hmem
  have hAS : ∀ a ∈ l.take w, ∀ b ∈ (l.drop w).take (i - w), b.2 ≤ a.2 := by
    intro a hamem b hbmem
    obtain ⟨j, hjw, hget2⟩ := mem_take_idx hamem
    obtain ⟨j2, hj2w, hj2i, hget3⟩ := mem_slice_idx hbmem
    exact pairwise_getElem? hsorted hget2 hget3 (by omega)
  have hAD : ∀ a ∈ l.take w, ∀ b ∈ l.drop (i + 1), b.2 ≤ a.2 := by
    intro a hamem b hbmem
    obtain ⟨j, hjw, hget2⟩ := mem_take_idx hamem
    obtain ⟨j2, hj2, hget3⟩ := mem_drop_idx hbmem
    exact pairwise_getElem? hsorted hget2 hget3 (by omega)
  have hxS : ∀ b ∈ (l.drop w).take (i - w), b.2 ≤ c := by
    intro b hbmem
    obtain ⟨j, hjw, hji, hget2⟩ := mem_slice_idx hbmem
    have hji2 : j < i := by omega
    have hget2set : l2[j]? = some b := by
      rw [hl2, set_getElem?_ne l i j (e.1, c) (by omega)]
      exact hget2
    obtain ⟨e2, he2, he2c⟩ := favWalk_region l2 c i j (by rw [← hwdef]; omega) hji2
    rw [hget2set] at he2
    cases he2
    omega
  have hxD : ∀ b ∈ l.drop (i + 1), b.2 ≤ c := by
    intro b hbmem
    have := hdrop b hbmem
    omega
  have hSD : ∀ a ∈ (l.drop w).take (i - w), ∀ b ∈ l.drop (i + 1), b.2 ≤ a.2 := by
    intro a hamem b hbmem
    obtain ⟨j, hjw, hji, hget2⟩ := mem_slice_idx hamem
    obtain ⟨j2, hj2, hget3⟩ := mem_drop_idx hbmem
    exact pairwise_getElem? hsorted hget2 hget3 (by omega)
  exact pairwise_assemble hA hS hD hAx hAS hAD hxS hxD hSD

theorem favStep_mem {β : Type} {l : List (β × Nat)} {i : Nat} {e : β × Nat}
    (hget : l[i]? = some e) :
    ∀ x ∈ favStep l i, x = (e.1, e.2 + 1) ∨ x ∈ l.take i ∨ x ∈ l.drop (i + 1) := by
  have hil : i < l.length := (List.getElem?_eq_some_iff.1 hget).1
  have hred : favStep l i = removeAt
      (insertAt (l.set i (e.1, e.2 + 1))
        (favWalk (l.set i (e.1, e.2 + 1)) (e.2 + 1) i) (e.1, e.2 + 1)) (i + 1) := by
    simp only [favStep, hget]
  rw [hred]
  set l2 := l.set i (e.1, e.2 + 1) with hl2
  set c := e.2 + 1 with hc
  set w := favWalk l2 c i with hwdef
  have hwle : w ≤ i := favWalk_le l2 c i
  rw [removeAt_insertAt l2 (e.1, c) w i hwle (by rw [hl2, List.length_set]; omega),
    take_set_of_le l i w (e.1, c) hwle,
    slice_set_of_le l i w (i - w) (e.1, c) (by omega),
    drop_set_of_lt l i (i + 1) (e.1, c) (by omega)]
  intro x hx
  rcases List.mem_append.1 hx with hx | hx
  · right
    left
    have : l.take w = (l.take i).take w := by
      rw [List.take_take, Nat.min_eq_left hwle]
    rw [this] at hx
    exact List.mem_of_mem_take hx
  · rcases List.mem_cons.1 hx with rfl | hx
    · exact Or.inl rfl
    · rcases List.mem_append.1 hx with hx | hx
      · right
        left
        rw [← List.drop_take] at hx
        exact List.mem_of_mem_drop hx
      · right
        right
        exact hx

theorem favAccess_sorted {β : Type} [DecidableEq β] {l : List (β × Nat)}
    (hs : l.Pairwise fun a b => b.2 ≤ a.2) (hcnt : ∀ x ∈ l, 1 ≤ x.2) (v : β) :
    (favAccess l v).Pairwise (fun a b => b.2 ≤ a.2) ∧
    ∀ x ∈ favAccess l v, 1 ≤ x.2 := by
  rw [favAccess]
  cases hf : favFind l v with
  | some i =>
    obtain ⟨cnt, hget⟩ := favFind_spec hf
    have hdrop : ∀ x ∈ l.drop (i + 1), x.2 ≤ (v, cnt).2 := by
      intro x hx
      obtain ⟨j, hj, hget2⟩ := mem_drop_idx hx
      exact pairwise_getElem? hs hget hget2 (by omega)
    refine ⟨favStep_sorted hget hs hdrop, ?_⟩
    intro x hx
    rcases favStep_mem hget x hx with rfl | hx2 | hx2
    · simp
    · exact hcnt x (List.mem_of_mem_take hx2)
    · exact hcnt x (List.mem_of_mem_drop hx2)
  | none =>
    have hget1 : (l ++ [(v, 0)])[l.length]? = some (v, 0) :=
      List.getElem?_concat_length l (v, 0)
    have hs1 : (l ++ [(v, 0)]).Pairwise fun a b : β × Nat => b.2 ≤ a.2 := by
      rw [List.pairwise_append]
      refine ⟨hs, List.pairwise_singleton _ _, ?_⟩
      intro a _ b hb
      rw [List.mem_singleton] at hb
      subst hb
      simp
    have hdrop1 : ∀ x ∈ (l ++ [(v, 0)]).drop (l.length + 1), x.2 ≤ (v, 0).2 := by
      intro x hx
      rw [List.drop_eq_nil_of_le (by simp)] at hx
      simp at hx
    refine ⟨favStep_sorted hget1 hs1 hdrop1, ?_⟩
    intro x hx
    rcases favStep_mem hget1 x hx with rfl | hx2 | hx2
    · simp
    · rw [List.take_left] at hx2
      exact hcnt x hx2
    · rw [List.drop_eq_nil_of_le (by simp)] at hx2
      simp at hx2

theorem favReach_invariant {β : Type} [DecidableEq β] {l : List (β × Nat)}
    (h : FavReach l) :
    l.Pairwise (fun a b => b.2 ≤ a.2) ∧ ∀ x ∈ l, 1 ≤ x.2 := by
  induction h with
  | nil => exact ⟨List.Pairwise.nil, by simp⟩
  | access v _ ih => exact favAccess_sorted ih.1 ih.2 v

/-- C4: on a frequency-ranked `FavouritesList`, after any sequence of
`access` calls, every pair of adjacent entries (A immediately before B)
satisfies A's counter ≥ B's counter: the list stays in non-increasing
counter order. -/
theorem C4_frequency_list_in_nonincreasing_counter_order
    {β : Type} [DecidableEq β] {l : List (β × Nat)} (h : FavReach l) :
    List.Chain' (fun a b => b.2 ≤ a.2) l :=
  (favReach_invariant h).1.chain'

/-- Witness for C4 at a concrete access sequence
(`access 5; access 7; access 7`). -/
theorem C4_witness :
    FavReach (favAccess (favAccess (favAccess ([] : List (Nat × Nat)) 5) 7) 7) ∧
    List.Chain' (fun a b : Nat × Nat => b.2 ≤ a.2)
      (favAccess (favAccess (favAccess ([] : List (Nat × Nat)) 5) 7) 7) :=
  ⟨FavReach.access 7 (FavReach.access 7 (FavReach.access 5 FavReach.nil)),
    C4_frequency_list_in_nonincreasing_counter_order
      (FavReach.access 7 (FavReach.access 7 (FavReach.access 5 FavReach.nil)))⟩

/-! Frame lemmas for the node heap and the link pointers. -/

theorem getEntry_updNode {α : Type} (m : List (Nat × Node α)) (j : Nat)
    (f : Node α → Node α) (i : Nat) :
    getEntry (updNode m j f) i
      = if i = j then (getEntry m i).map f else getEntry m i := by
  induction m with
  | nil =>
    simp [updNode, getEntry]
  | cons e m ih =>
    simp only [updNode, List.map_cons]
    by_cases hej : e.1 = j
    · rw [if_pos hej]
      by_cases hei : e.1 = i
      · have hij : i = j := by omega
        rw [getEntry, getEntry, if_pos hei, if_pos hei, if_pos hij]
        rfl
      · rw [getEntry, getEntry, if_neg hei, if_neg hei, ← updNode, ih]
    · rw [if_neg hej]
      by_cases hei : e.1 = i
      · have hij : ¬(i = j) := by omega
        rw [getEntry, getEntry, if_pos hei, if_pos hei, if_neg hij]
      · rw [getEntry, getEntry, if_neg hei, if_neg hei, ← updNode, ih]

theorem keys_updNode {α : Type} (m : List (Nat × Node α)) (j : Nat)
    (f : Node α → Node α) :
    (updNode m j f).map Prod.fst = m.map Prod.fst := by
  induction m with
  | nil => rfl
  | cons e m ih =>
    simp only [updNode, List.map_cons] at *
    by_cases hej : e.1 = j
    · rw [if_pos hej]
      simp only [List.map_cons, ih]
    · rw [if_neg hej]
      simp only [List.map_cons, ih]

theorem getEntry_some_of_key_mem {α : Type} {m : List (Nat × Node α)} {i : Nat}
    (h : i ∈ m.map Prod.fst) : ∃ nd, getEntry m i = some nd := by
  induction m with
  | nil => simp at h
  | cons e m ih =>
    rw [List.map_cons, List.mem_cons] at h
    by_cases hei : e.1 = i
    · exact ⟨e.2, by rw [getEntry, if_pos hei]⟩
    · rcases h with h | h
      · exact absurd h.symm hei
      · obtain ⟨nd, hnd⟩ := ih h
        exact ⟨nd, by rw [getEntry, if_neg hei, hnd]⟩

theorem key_mem_of_getEntry_some {α : Type} {m : List (Nat × Node α)} {i : Nat}
    {nd : Node α} (h : getEntry m i = some nd) : i ∈ m.map Prod.fst := by
  induction m with
  | nil => simp [getEntry] at h
  | cons e m ih =>
    rw [getEntry] at h
    by_cases hei : e.1 = i
    · rw [List.map_cons, ← hei]
      exact List.mem_cons_self _ _
    · rw [if_neg hei] at h
      rw [List.map_cons]
      exact List.mem_cons_of_mem _ (ih h)

theorem setNext_ident {α : Type} (l : DoublyLinkedBase α) (j v : Nat) :
    (setNext l j v).ident = l.ident := by
  rw [setNext]
  split <;> rfl

theorem setNext_size {α : Type} (l : DoublyLinkedBase α) (j v : Nat) :
    (setNext l j v).size = l.size := by
  rw [setNext]
  split <;> rfl

theorem setNext_fresh {α : Type} (l : DoublyLinkedBase α) (j v : Nat) :
    (setNext l j v).fresh = l.fresh := by
  rw [setNext]
  split <;> rfl

theorem setNext_trailerPrev {α : Type} (l : DoublyLinkedBase α) (j v : Nat) :
    (setNext l j v).trailerPrev = l.trailerPrev := by
  rw [setNext]
  split <;> rfl

theorem setNext_headerNext_ne {α : Type} (l : DoublyLinkedBase α) {j : Nat} (v : Nat)
    (hj : j ≠ 0) : (setNext l j v).headerNext = l.headerNext := by
  rw [setNext, if_neg hj]

theorem setNext_headerNext_self {α : Type} (l : DoublyLinkedBase α) (v : Nat) :
    (setNext l 0 v).headerNext = v := by
  rw [setNext, if_pos rfl]

theorem setPrev_ident {α : Type} (l : DoublyLinkedBase α) (j v : Nat) :
    (setPrev l j v).ident = l.ident := by
  rw [setPrev]
  split <;> rfl

theorem setPrev_size {α : Type} (l : DoublyLinkedBase α) (j v : Nat) :
    (setPrev l j v).size = l.size := by
  rw [setPrev]
  split <;> rfl

theorem setPrev_fresh {α : Type} (l : DoublyLinkedBase α) (j v : Nat) :
    (setPrev l j v).fresh = l.fresh := by
  rw [setPrev]
  split <;> rfl

theorem setPrev_headerNext {α : Type} (l : DoublyLinkedBase α) (j v : Nat) :
    (setPrev l j v).headerNext = l.headerNext := by
  rw [setPrev]
  split <;> rfl

theorem setPrev_trailerPrev_ne {α : Type} (l : DoublyLinkedBase α) {j : Nat} (v : Nat)
    (hj : j ≠ 1) : (setPrev l j v).trailerPrev = l.trailerPrev := by
  rw [setPrev, if_neg hj]

theorem setPrev_trailerPrev_self {α : Type} (l : DoublyLinkedBase α) (v : Nat) :
    (setPrev l 1 v).trailerPrev = v := by
  rw [setPrev, if_pos rfl]

theorem getNode_setNext_ne {α : Type} (l : DoublyLinkedBase α) (j v : Nat) {i : Nat}
    (hij : i ≠ j) : (setNext l j v).getNode i = l.getNode i := by
  rw [setNext]
  by_cases hj : j = 0
  · rw [if_pos hj]
    rfl
  · rw [if_neg hj]
    simp only [DoublyLinkedBase.getNode]
    rw [getEntry_updNode, if_neg hij]

theorem getNode_setNext_self {α : Type} (l : DoublyLinkedBase α) {j : Nat} (v : Nat)
    (hj : j ≠ 0) :
    (setNext l j v).getNode j = (l.getNode j).map fun nd => { nd with next := v } := by
  rw [setNext, if_neg hj]
  simp only [DoublyLinkedBase.getNode]
  rw [getEntry_updNode, if_pos rfl]

theorem getNode_setPrev_ne {α : Type} (l : DoublyLinkedBase α) (j v : Nat) {i : Nat}
    (hij : i ≠ j) : (setPrev l j v).getNode i = l.getNode i := by
  rw [setPrev]
  by_cases hj : j = 1
  · rw [if_pos hj]
    rfl
  · rw [if_neg hj]
    simp only [DoublyLinkedBase.getNode]
    rw [getEntry_updNode, if_neg hij]

theorem getNode_setPrev_self {α : Type} (l : DoublyLinkedBase α) {j : Nat} (v : Nat)
    (hj : j ≠ 1) :
    (setPrev l j v).getNode j = (l.getNode j).map fun nd => { nd with prev := v } := by
  rw [setPrev, if_neg hj]
  simp only [DoublyLinkedBase.getNode]
  rw [getEntry_updNode, if_pos rfl]

theorem getNode_setDeprecated_ne {α : Type} (l : DoublyLinkedBase α) (j : Nat) {i : Nat}
    (hij : i ≠ j) : (setDeprecated l j).getNode i = l.getNode i := by
  simp only [DoublyLinkedBase.getNode, setDeprecated]
  rw [getEntry_updNode, if_neg hij]

theorem getNode_setDeprecated_self {α : Type} (l : DoublyLinkedBase α) (j : Nat) :
    (setDeprecated l j).getNode j
      = (l.getNode j).map fun nd => { nd with deprecated := true } := by
  simp only [DoublyLinkedBase.getNode, setDeprecated]
  rw [getEntry_updNode, if_pos rfl]

theorem getNode_setData_ne {α : Type} (l : DoublyLinkedBase α) (j : Nat) (x : α) {i : Nat}
    (hij : i ≠ j) : (setData l j x).getNode i = l.getNode i := by
  simp only [DoublyLinkedBase.getNode, setData]
  rw [getEntry_updNode, if_neg hij]

theorem getNode_setData_self {α : Type} (l : DoublyLinkedBase α) (j : Nat) (x : α) :
    (setData l j x).getNode j = (l.getNode j).map fun nd => { nd with data := x } := by
  simp only [DoublyLinkedBase.getNode, setData]
  rw [getEntry_updNode, if_pos rfl]

theorem nextPtr_setNext_ne {α : Type} (l : DoublyLinkedBase α) (j v : Nat) {i : Nat}
    (hij : i ≠ j) : nextPtr (setNext l j v) i = nextPtr l i := by
  rw [nextPtr, nextPtr]
  by_cases hi0 : i = 0
  · rw [if_pos hi0, if_pos hi0, setNext_headerNext_ne l v (by omega)]
  · rw [if_neg hi0, if_neg hi0]
    by_cases hi1 : i = 1
    · rw [if_pos hi1, if_pos hi1]
    · rw [if_neg hi1, if_neg hi1, getNode_setNext_ne l j v hij]

theorem nextPtr_setNext_self {α : Type} (l : DoublyLinkedBase α) {j : Nat} (v : Nat)
    (hj1 : j ≠ 1) (hmap : j = 0 ∨ ∃ nd, l.getNode j = some nd) :
    nextPtr (setNext l j v) j = some v := by
  rw [nextPtr]
  by_cases hj0 : j = 0
  · rw [if_pos hj0, hj0, setNext_headerNext_self]
  · rw [if_neg hj0, if_neg hj1, getNode_setNext_self l v hj0]
    rcases hmap with h | ⟨nd, hnd⟩
    · exact absurd h hj0
    · rw [hnd]
      rfl

theorem prevPtr_setNext {α : Type} (l : DoublyLinkedBase α) (j v i : Nat) :
    prevPtr (setNext l j v) i = prevPtr l i := by
  rw [prevPtr, prevPtr]
  by_cases hi1 : i = 1
  · rw [if_pos hi1, if_pos hi1, setNext_trailerPrev]
  · rw [if_neg hi1, if_neg hi1]
    by_cases hi0 : i = 0
    · rw [if_pos hi0, if_pos hi0]
    · rw [if_neg hi0, if_neg hi0]
      by_cases hij : i = j
      · subst hij
        rw [getNode_setNext_self l v hi0]
        cases l.getNode i <;> rfl
      · rw [getNode_setNext_ne l j v hij]

theorem nextPtr_setPrev {α : Type} (l : DoublyLinkedBase α) (j v i : Nat) :
    nextPtr (setPrev l j v) i = nextPtr l i := by
  rw [nextPtr, nextPtr]
  by_cases hi0 : i = 0
  · rw [if_pos hi0, if_pos hi0, setPrev_headerNext]
  · rw [if_neg hi0, if_neg hi0]
    by_cases hi1 : i = 1
    · rw [if_pos hi1, if_pos hi1]
    · rw [if_neg hi1, if_neg hi1]
      by_cases hij : i = j
      · subst hij
        rw [getNode_setPrev_self l v hi1]
        cases l.getNode i <;> rfl
      · rw [getNode_setPrev_ne l j v hij]

theorem prevPtr_setPrev_ne {α : Type} (l : DoublyLinkedBase α) (j v : Nat) {i : Nat}
    (hij : i ≠ j) : prevPtr (setPrev l j v) i = prevPtr l i := by
  rw [prevPtr, prevPtr]
  by_cases hi1 : i = 1
  · rw [if_pos hi1, if_pos hi1, setPrev_trailerPrev_ne l v (by omega)]
  · rw [if_neg hi1, if_neg hi1]
    by_cases hi0 : i = 0
    · rw [if_pos hi0, if_pos hi0]
    · rw [if_neg hi0, if_neg hi0, getNode_setPrev_ne l j v hij]

theorem prevPtr_setPrev_self {α : Type} (l : DoublyLinkedBase α) {j : Nat} (v : Nat)
    (hj0 : j ≠ 0) (hmap : j = 1 ∨ ∃ nd, l.getNode j = some nd) :
    prevPtr (setPrev l j v) j = some v := by
  rw [prevPtr]
  by_cases hj1 : j = 1
  · rw [if_pos hj1, hj1, setPrev_trailerPrev_self]
  · rw [if_neg hj1, if_neg hj0, getNode_setPrev_self l v hj1]
    rcases hmap with h | ⟨nd, hnd⟩
    · exact absurd h hj1
    · rw [hnd]
      rfl

theorem nextPtr_setDeprecated {α : Type} (l : DoublyLinkedBase α) (j i : Nat) :
    nextPtr (setDeprecated l j) i = nextPtr l i := by
  rw [nextPtr, nextPtr]
  by_cases hi0 : i = 0
  · rw [if_pos hi0, if_pos hi0]
    rfl
  · rw [if_neg hi0, if_neg hi0]
    by_cases hi1 : i = 1
    · rw [if_pos hi1, if_pos hi1]
    · rw [if_neg hi1, if_neg hi1]
      by_cases hij : i = j
      · subst hij
        rw [getNode_setDeprecated_self]
        cases l.getNode i <;> rfl
      · rw [getNode_setDeprecated_ne l j hij]

theorem prevPtr_setDeprecated {α : Type} (l : DoublyLinkedBase α) (j i : Nat) :
    prevPtr (setDeprecated l j) i = prevPtr l i := by
  rw [prevPtr, prevPtr]
  by_cases hi1 : i = 1
  · rw [if_pos hi1, if_pos hi1]
    rfl
  · rw [if_neg hi1, if_neg hi1]
    by_cases hi0 : i = 0
    · rw [if_pos hi0, if_pos hi0]
    · rw [if_neg hi0, if_neg hi0]
      by_cases hij : i = j
      · subst hij
        rw [getNode_setDeprecated_self]
        cases l.getNode i <;> rfl
      · rw [getNode_setDeprecated_ne l j hij]

theorem nextPtr_setData {α : Type} (l : DoublyLinkedBase α) (j : Nat) (x : α) (i : Nat) :
    nextPtr (setData l j x) i = nextPtr l i := by
  rw [nextPtr, nextPtr]
  by_cases hi0 : i = 0
  · rw [if_pos hi0, if_pos hi0]
    rfl
  · rw [if_neg hi0, if_neg hi0]
    by_cases hi1 : i = 1
    · rw [if_pos hi1, if_pos hi1]
    · rw [if_neg hi1, if_neg hi1]
      by_cases hij : i = j
      · subst hij
        rw [getNode_setData_self]
        cases l.getNode i <;> rfl
      · rw [getNode_setData_ne l j x hij]

theorem prevPtr_setData {α : Type} (l : DoublyLinkedBase α) (j : Nat) (x : α) (i : Nat) :
    prevPtr (setData l j x) i = prevPtr l i := by
  rw [prevPtr, prevPtr]
  by_cases hi1 : i = 1
  · rw [if_pos hi1, if_pos hi1]
    rfl
  · rw [if_neg hi1, if_neg hi1]
    by_cases hi0 : i = 0
    · rw [if_pos hi0, if_pos hi0]
    · rw [if_neg hi0, if_neg hi0]
      by_cases hij : i = j
      · subst hij
        rw [getNode_setData_self]
        cases l.getNode i <;> rfl
      · rw [getNode_setData_ne l j x hij]

/-! Anatomy of `_insert`. -/

theorem insertNode_snd {α : Type} (l : DoublyLinkedBase α) (item : α) (a b : Nat) :
    (l.insertNode item a b).2 = l.fresh := rfl

theorem insertNode_ident {α : Type} (l : DoublyLinkedBase α) (item : α) (a b : Nat) :
    (l.insertNode item a b).1.ident = l.ident := by
  rw [DoublyLinkedBase.insertNode]
  rw [setPrev_ident, setNext_ident]

theorem insertNode_fresh {α : Type} (l : DoublyLinkedBase α) (item : α) (a b : Nat) :
    (l.insertNode item a b).1.fresh = l.fresh + 1 := by
  rw [DoublyLinkedBase.insertNode]
  rw [setPrev_fresh, setNext_fresh]

theorem insertNode_size {α : Type} (l : DoublyLinkedBase α) (item : α) (a b : Nat) :
    (l.insertNode item a b).1.size = l.size + 1 := by
  rw [DoublyLinkedBase.insertNode]
  rw [setPrev_size, setNext_size]

theorem setNext_keys {α : Type} (l : DoublyLinkedBase α) (j v : Nat) :
    (setNext l j v).nodes.map Prod.fst = l.nodes.map Prod.fst := by
  rw [setNext]
  split
  · rfl
  · exact keys_updNode l.nodes j fun nd => { nd with next := v }

theorem setPrev_keys {α : Type} (l : DoublyLinkedBase α) (j v : Nat) :
    (setPrev l j v).nodes.map Prod.fst = l.nodes.map Prod.fst := by
  rw [setPrev]
  split
  · rfl
  · exact keys_updNode l.nodes j fun nd => { nd with prev := v }

theorem insertNode_keys {α : Type} (l : DoublyLinkedBase α) (item : α) (a b : Nat) :
    (l.insertNode item a b).1.nodes.map Prod.fst
      = l.fresh :: l.nodes.map Prod.fst := by
  rw [DoublyLinkedBase.insertNode]
  rw [setPrev_keys, setNext_keys]
  rfl

theorem nextPtr_size_irrel {α : Type} (l : DoublyLinkedBase α) (s : Int) (i : Nat) :
    nextPtr { l with size := s } i = nextPtr l i := rfl

theorem prevPtr_size_irrel {α : Type} (l : DoublyLinkedBase α) (s : Int) (i : Nat) :
    prevPtr { l with size := s } i = prevPtr l i := rfl

theorem nextPtr_cons_fresh {α : Type} (l : DoublyLinkedBase α) (nd0 : Node α) {i : Nat}
    (hif : i ≠ l.fresh) :
    nextPtr { l with nodes := (l.fresh, nd0) :: l.nodes, fresh := l.fresh + 1 } i
      = nextPtr l i := by
  rw [nextPtr, nextPtr]
  by_cases hi0 : i = 0
  · rw [if_pos hi0, if_pos hi0]
  · rw [if_neg hi0, if_neg hi0]
    by_cases hi1 : i = 1
    · rw [if_pos hi1, if_pos hi1]
    · rw [if_neg hi1, if_neg hi1]
      show (getEntry ((l.fresh, nd0) :: l.nodes) i).map Node.next = _
      rw [getEntry, if_neg (by omega)]
      rfl

theorem prevPtr_cons_fresh {α : Type} (l : DoublyLinkedBase α) (nd0 : Node α) {i : Nat}
    (hif : i ≠ l.fresh) :
    prevPtr { l with nodes := (l.fresh, nd0) :: l.nodes, fresh := l.fresh + 1 } i
      = prevPtr l i := by
  rw [prevPtr, prevPtr]
  by_cases hi1 : i = 1
  · rw [if_pos hi1, if_pos hi1]
  · rw [if_neg hi1, if_neg hi1]
    by_cases hi0 : i = 0
    · rw [if_pos hi0, if_pos hi0]
    · rw [if_neg hi0, if_neg hi0]
      show (getEntry ((l.fresh, nd0) :: l.nodes) i).map Node.prev = _
      rw [getEntry, if_neg (by omega)]
      rfl

theorem getNode_cons_fresh_ne {α : Type} (l : DoublyLinkedBase α) (nd0 : Node α) {i : Nat}
    (hif : i ≠ l.fresh) :
    DoublyLinkedBase.getNode
        { l with nodes := (l.fresh, nd0) :: l.nodes, fresh := l.fresh + 1 } i
      = l.getNode i := by
  show getEntry ((l.fresh, nd0) :: l.nodes) i = _
  rw [getEntry, if_neg (by omega)]
  rfl

theorem getNode_cons_fresh_self {α : Type} (l : DoublyLinkedBase α) (nd0 : Node α) :
    DoublyLinkedBase.getNode
        { l with nodes := (l.fresh, nd0) :: l.nodes, fresh := l.fresh + 1 } l.fresh
      = some nd0 := by
  show getEntry ((l.fresh, nd0) :: l.nodes) l.fresh = _
  rw [getEntry, if_pos rfl]

theorem insert_nextPtr_ne {α : Type} (l : DoublyLinkedBase α) (item : α) (a b : Nat)
    {i : Nat} (hia : i ≠ a) (hif : i ≠ l.fresh) :
    nextPtr (l.insertNode item a b).1 i = nextPtr l i := by
  rw [DoublyLinkedBase.insertNode]
  rw [nextPtr_size_irrel, nextPtr_setPrev, nextPtr_setNext_ne _ _ _ hia,
    nextPtr_cons_fresh _ _ hif]

theorem insert_prevPtr_ne {α : Type} (l : DoublyLinkedBase α) (item : α) (a b : Nat)
    {i : Nat} (hib : i ≠ b) (hif : i ≠ l.fresh) :
    prevPtr (l.insertNode item a b).1 i = prevPtr l i := by
  rw [DoublyLinkedBase.insertNode]
  rw [prevPtr_size_irrel, prevPtr_setPrev_ne _ _ _ hib, prevPtr_setNext,
    prevPtr_cons_fresh _ _ hif]

theorem insert_nextPtr_a {α : Type} (l : DoublyLinkedBase α) (item : α) {a : Nat}
    (b : Nat) (ha1 : a ≠ 1) (hmap : a = 0 ∨ ∃ nd, l.getNode a = some nd)
    (haf : a ≠ l.fresh) :
    nextPtr (l.insertNode item a b).1 a = some l.fresh := by
  rw [DoublyLinkedBase.insertNode]
  rw [nextPtr_size_irrel, nextPtr_setPrev]
  apply nextPtr_setNext_self _ _ ha1
  rcases hmap with h | ⟨nd, hnd⟩
  · exact Or.inl h
  · right
    exact ⟨nd, by rw [getNode_cons_fresh_ne _ _ haf, hnd]⟩

theorem insert_prevPtr_b {α : Type} (l : DoublyLinkedBase α) (item : α) (a : Nat)
    {b : Nat} (hb0 : b ≠ 0) (hmap : b = 1 ∨ ∃ nd, l.getNode b = some nd)
    (hbf : b ≠ l.fresh) :
    prevPtr (l.insertNode item a b).1 b = some l.fresh := by
  rw [DoublyLinkedBase.insertNode]
  rw [prevPtr_size_irrel]
  apply prevPtr_setPrev_self _ _ hb0
  rcases hmap with h | ⟨nd, hnd⟩
  · exact Or.inl h
  · right
    by_cases hba : b = a
    · subst hba
      rw [getNode_setNext_self _ _ (by omega), getNode_cons_fresh_ne _ _ hbf, hnd]
      exact ⟨_, rfl⟩
    · rw [getNode_setNext_ne _ _ _ hba, getNode_cons_fresh_ne _ _ hbf, hnd]
      exact ⟨nd, rfl⟩

theorem insert_getNode_f {α : Type} (l : DoublyLinkedBase α) (item : α) {a b : Nat}
    (haf : a ≠ l.fresh) (hbf : b ≠ l.fresh) :
    (l.insertNode item a b).1.getNode l.fresh = some ⟨item, a, b, false⟩ := by
  rw [DoublyLinkedBase.insertNode]
  show DoublyLinkedBase.getNode _ l.fresh = _
  rw [show ∀ x : DoublyLinkedBase α, ∀ s : Int, ({ x with size := s } : DoublyLinkedBase α).getNode = x.getNode from fun _ _ => rfl]
  rw [getNode_setPrev_ne _ _ _ (by omega), getNode_setNext_ne _ _ _ (by omega),
    getNode_cons_fresh_self]

theorem insert_nextPtr_f {α : Type} (l : DoublyLinkedBase α) (item : α) {a b : Nat}
    (hf2 : 2 ≤ l.fresh) (haf : a ≠ l.fresh) (hbf : b ≠ l.fresh) :
    nextPtr (l.insertNode item a b).1 l.fresh = some b := by
  rw [nextPtr, if_neg (by omega), if_neg (by omega),
    insert_getNode_f l item haf hbf]
  rfl

theorem insert_prevPtr_f {α : Type} (l : DoublyLinkedBase α) (item : α) {a b : Nat}
    (hf2 : 2 ≤ l.fresh) (haf : a ≠ l.fresh) (hbf : b ≠ l.fresh) :
    prevPtr (l.insertNode item a b).1 l.fresh = some a := by
  rw [prevPtr, if_neg (by omega), if_neg (by omega),
    insert_getNode_f l item haf hbf]
  rfl

theorem getNode_map_dep_setNext {α : Type} (l : DoublyLinkedBase α) (j v i : Nat) :
    ((setNext l j v).getNode i).map Node.deprecated
      = (l.getNode i).map Node.deprecated := by
  by_cases hij : i = j
  · subst hij
    by_cases hi0 : i = 0
    · rw [setNext, if_pos hi0]
      rfl
    · rw [getNode_setNext_self _ _ hi0]
      cases l.getNode i <;> rfl
  · rw [getNode_setNext_ne _ _ _ hij]

theorem getNode_map_dep_setPrev {α : Type} (l : DoublyLinkedBase α) (j v i : Nat) :
    ((setPrev l j v).getNode i).map Node.deprecated
      = (l.getNode i).map Node.deprecated := by
  by_cases hij : i = j
  · subst hij
    by_cases hi1 : i = 1
    · rw [setPrev, if_pos hi1]
      rfl
    · rw [getNode_setPrev_self _ _ hi1]
      cases l.getNode i <;> rfl
  · rw [getNode_setPrev_ne _ _ _ hij]

theorem getNode_map_dep_setData {α : Type} (l : DoublyLinkedBase α) (j : Nat) (x : α)
    (i : Nat) :
    ((setData l j x).getNode i).map Node.deprecated
      = (l.getNode i).map Node.deprecated := by
  by_cases hij : i = j
  · subst hij
    rw [getNode_setData_self]
    cases l.getNode i <;> rfl
  · rw [getNode_setData_ne _ _ _ hij]

theorem getNode_size_irrel {α : Type} (l : DoublyLinkedBase α) (s : Int) :
    DoublyLinkedBase.getNode { l with size := s } = l.getNode := rfl

theorem insert_getNode_map_dep {α : Type} (l : DoublyLinkedBase α) (item : α) (a b : Nat)
    {i : Nat} (hif : i ≠ l.fresh) :
    ((l.insertNode item a b).1.getNode i).map Node.deprecated
      = (l.getNode i).map Node.deprecated := by
  rw [DoublyLinkedBase.insertNode, getNode_size_irrel, getNode_map_dep_setPrev,
    getNode_map_dep_setNext, getNode_cons_fresh_ne _ _ hif]

/-! Chains of linked nodes. -/

theorem chain'_imp_mem {γ : Type} {R S : γ → γ → Prop} :
    ∀ (m : List γ), List.Chain' R m →
      (∀ x y, x ∈ m → y ∈ m.tail → R x y → S x y) → List.Chain' S m := by
  intro m
  induction m with
  | nil => intro _ _; exact List.chain'_nil
  | cons x t ih =>
    intro h himp
    cases t with
    | nil => exact List.chain'_singleton x
    | cons y r =>
      rw [List.chain'_cons] at h ⊢
      refine ⟨himp x y (List.mem_cons_self _ _) (List.mem_cons_self _ _) h.1, ?_⟩
      exact ih h.2 fun u v hu hv hR =>
        himp u v (List.mem_cons_of_mem _ hu) (List.mem_cons_of_mem _ hv) hR

theorem mem_of_getLast?_eq {γ : Type} :
    ∀ {xs : List γ} {x : γ}, xs.getLast? = some x → x ∈ xs := by
  intro xs
  induction xs with
  | nil => intro x h; simp at h
  | cons a t ih =>
    intro x h
    cases t with
    | nil =>
      simp only [List.getLast?_singleton, Option.some.injEq] at h
      subst h
      exact List.mem_cons_self _ _
    | cons b r =>
      rw [List.getLast?_cons_cons] at h
      exact List.mem_cons_of_mem _ (ih h)

theorem getLast?_append_cons {γ : Type} :
    ∀ (xs : List γ) (y : γ) (zs : List γ),
      (xs ++ y :: zs).getLast? = (y :: zs).getLast? := by
  intro xs
  induction xs with
  | nil => intro y zs; rfl
  | cons x t ih =>
    intro y zs
    rw [List.cons_append]
    cases ht : t ++ y :: zs with
    | nil => exact absurd ht (by simp)
    | cons hd tl =>
      rw [List.getLast?_cons_cons, ← ht]
      exact ih y zs

theorem ext_shape :
    ∀ (e : List Nat), e.head? = some 0 → e.getLast? = some 1 → 2 ≤ e.length →
      ∃ m, e = 0 :: m ++ [1] := by
  intro e h0 h1 hlen
  match e with
  | [] => simp at h0
  | [x] => simp at hlen
  | x :: y :: rest =>
    have hx : x = 0 := by
      rw [List.head?_cons, Option.some.injEq] at h0
      omega
    have h1r : (y :: rest).getLast? = some 1 := by
      rw [List.getLast?_cons_cons] at h1
      exact h1
    have hsplit2 := List.dropLast_append_getLast? 1 h1r
    refine ⟨(y :: rest).dropLast, ?_⟩
    rw [hx]
    rw [List.cons_append]
    exact congrArg (List.cons 0) hsplit2.symm

theorem ext_elem {c : List Nat} {i : Nat} :
    i ∈ 0 :: c ++ [1] ↔ i = 0 ∨ i ∈ c ∨ i = 1 := by
  simp [List.mem_cons, List.mem_append]

theorem inv_mem_c_facts {α : Type} {l : DoublyLinkedBase α} {c : List Nat}
    (h : Inv l c) {i : Nat} (hi : i ∈ c) :
    2 ≤ i ∧ i < l.fresh ∧ ∃ nd, l.getNode i = some nd ∧ nd.deprecated = false := by
  obtain ⟨nd, hnd, hdep⟩ := h.mem_live i hi
  obtain ⟨h2, hf⟩ := h.keys_range i nd hnd
  exact ⟨h2, hf, nd, hnd, hdep⟩

theorem inv_extNodup {α : Type} {l : DoublyLinkedBase α} {c : List Nat}
    (h : Inv l c) : (0 :: c ++ [1]).Nodup := by
  have h0 : 0 ∉ c := fun hmem => by
    have := (inv_mem_c_facts h hmem).1
    omega
  have h1 : 1 ∉ c := fun hmem => by
    have := (inv_mem_c_facts h hmem).1
    omega
  rw [List.cons_append, List.nodup_cons, List.nodup_append]
  refine ⟨?_, h.nodup, List.nodup_singleton _, ?_⟩
  · rw [List.mem_append]
    rintro (hc | hc)
    · exact h0 hc
    · simp at hc
  · intro x hx hx1
    rw [List.mem_singleton] at hx1
    subst hx1
    exact h1 hx

theorem inv_fresh_notin_ext {α : Type} {l : DoublyLinkedBase α} {c : List Nat}
    (h : Inv l c) : l.fresh ∉ 0 :: c ++ [1] := by
  rw [ext_elem]
  rintro (hf | hf | hf)
  · have := h.fresh_ge
    omega
  · have := (inv_mem_c_facts h hf).2.1
    omega
  · have := h.fresh_ge
    omega

theorem inv_sentinels_unmapped {α : Type} {l : DoublyLinkedBase α} {c : List Nat}
    (h : Inv l c) : l.getNode 0 = none ∧ l.getNode 1 = none := by
  constructor
  · cases h0 : l.getNode 0 with
    | none => rfl
    | some nd =>
      have := (h.keys_range 0 nd h0).1
      omega
  · cases h1 : l.getNode 1 with
    | none => rfl
    | some nd =>
      have := (h.keys_range 1 nd h1).1
      omega

theorem inv_fresh_unmapped {α : Type} {l : DoublyLinkedBase α} {c : List Nat}
    (h : Inv l c) : l.getNode l.fresh = none := by
  cases hf : l.getNode l.fresh with
  | none => rfl
  | some nd =>
    have := (h.keys_range _ nd hf).2
    omega

theorem head?_append_cons_eq {γ : Type} (xs : List γ) (y : γ) (zs zs2 : List γ) :
    (xs ++ y :: zs).head? = (xs ++ y :: zs2).head? := by
  cases xs <;> rfl

theorem insert_splice {α : Type} {l : DoublyLinkedBase α} {c : List Nat} (hInv : Inv l c)
    {e1 e2 : List Nat} {a b : Nat}
    (hsplit : 0 :: c ++ [1] = e1 ++ a :: b :: e2) (item : α) :
    ∃ c', 0 :: c' ++ [1] = e1 ++ a :: l.fresh :: b :: e2 ∧
      Inv (l.insertNode item a b).1 c' := by
  have hf2 : 2 ≤ l.fresh := hInv.fresh_ge
  have hnodupExt : (e1 ++ a :: b :: e2).Nodup := hsplit ▸ inv_extNodup hInv
  have hfext : l.fresh ∉ e1 ++ a :: b :: e2 := hsplit ▸ inv_fresh_notin_ext hInv
  obtain ⟨hndE1, hndMid, hdisj⟩ := List.nodup_append.1 hnodupExt
  have hab : a ≠ b := by
    rw [List.nodup_cons] at hndMid
    intro hEq
    exact hndMid.1 (hEq ▸ List.mem_cons_self _ _)
  have haE2 : a ∉ e2 := by
    rw [List.nodup_cons] at hndMid
    intro hmem
    exact hndMid.1 (List.mem_cons_of_mem _ hmem)
  have hbE2 : b ∉ e2 := by
    rw [List.nodup_cons, List.nodup_cons] at hndMid
    exact hndMid.2.1
  have haE1 : a ∉ e1 := fun hmem => hdisj hmem (List.mem_cons_self _ _)
  have hbE1 : b ∉ e1 := fun hmem =>
    hdisj hmem (List.mem_cons_of_mem _ (List.mem_cons_self _ _))
  have hfE1 : l.fresh ∉ e1 := fun hm => hfext (List.mem_append.2 (Or.inl hm))
  have haf : a ≠ l.fresh := fun hEq =>
    hfext (List.mem_append.2 (Or.inr (hEq ▸ List.mem_cons_self _ _)))
  have hbf : b ≠ l.fresh := fun hEq =>
    hfext (List.mem_append.2 (Or.inr (hEq ▸ List.mem_cons_of_mem _ (List.mem_cons_self _ _))))
  have hfE2 : l.fresh ∉ e2 := fun hm =>
    hfext (List.mem_append.2 (Or.inr (List.mem_cons_of_mem _ (List.mem_cons_of_mem _ hm))))
  have hchain0 := hInv.chain
  rw [hsplit] at hchain0
  obtain ⟨hch1, hch2, hbound⟩ := List.chain'_append.1 hchain0
  have hlab : linked l a b := (List.chain'_cons.1 hch2).1
  have hchBE2 : List.Chain' (linked l) (b :: e2) := (List.chain'_cons.1 hch2).2
  have ha1 : a ≠ 1 := by
    intro hEq
    have hx := hlab.1
    rw [hEq] at hx
    simp [nextPtr] at hx
  have hb0 : b ≠ 0 := by
    intro hEq
    have hx := hlab.2
    rw [hEq] at hx
    simp [prevPtr] at hx
  have haext : a ∈ 0 :: c ++ [1] := by
    rw [hsplit]
    exact List.mem_append.2 (Or.inr (List.mem_cons_self _ _))
  have hbext : b ∈ 0 :: c ++ [1] := by
    rw [hsplit]
    exact List.mem_append.2 (Or.inr (List.mem_cons_of_mem _ (List.mem_cons_self _ _)))
  have haC : a = 0 ∨ a ∈ c := by
    rcases ext_elem.1 haext with h | h | h
    exacts [Or.inl h, Or.inr h, absurd h ha1]
  have hbC : b = 1 ∨ b ∈ c := by
    rcases ext_elem.1 hbext with h | h | h
    exacts [absurd h hb0, Or.inr h, Or.inl h]
  have hamap : a = 0 ∨ ∃ nd, l.getNode a = some nd := by
    rcases haC with h | h
    · exact Or.inl h
    · obtain ⟨_, _, nd, hnd, _⟩ := inv_mem_c_facts hInv h
      exact Or.inr ⟨nd, hnd⟩
  have hbmap : b = 1 ∨ ∃ nd, l.getNode b = some nd := by
    rcases hbC with h | h
    · exact Or.inl h
    · obtain ⟨_, _, nd, hnd, _⟩ := inv_mem_c_facts hInv h
      exact Or.inr ⟨nd, hnd⟩
  have hlastBE2 : (b :: e2).getLast? = some 1 := by
    have hgl := congrArg List.getLast? hsplit
    rw [List.getLast?_concat, getLast?_append_cons e1 a (b :: e2),
      List.getLast?_cons_cons] at hgl
    exact hgl.symm
  obtain ⟨c', hc'⟩ : ∃ c',
      (e1 ++ a :: l.fresh :: b :: e2 : List Nat) = 0 :: c' ++ [1] := by
    apply ext_shape
    · have hhead := congrArg List.head? hsplit
      rw [List.cons_append, List.head?_cons] at hhead
      rw [head?_append_cons_eq e1 a (l.fresh :: b :: e2) (b :: e2)]
      exact hhead.symm
    · rw [getLast?_append_cons e1 a (l.fresh :: b :: e2),
        List.getLast?_cons_cons, List.getLast?_cons_cons]
      exact hlastBE2
    · simp only [List.length_append, List.length_cons]
      omega
  have hshape : (e1 ++ [a]) ++ l.fresh :: b :: e2 = e1 ++ a :: l.fresh :: b :: e2 := by
    simp
  have hshape2 : (e1 ++ [a]) ++ b :: e2 = e1 ++ a :: b :: e2 := by
    simp
  have hpermE : (e1 ++ a :: l.fresh :: b :: e2 : List Nat).Perm
      (l.fresh :: (e1 ++ a :: b :: e2)) := by
    rw [← hshape, ← hshape2]
    exact List.perm_middle
  refine ⟨c', hc'.symm, ?_⟩
  have hndE' : (e1 ++ a :: l.fresh :: b :: e2 : List Nat).Nodup :=
    hpermE.symm.nodup (List.nodup_cons.2 ⟨hfext, hnodupExt⟩)
  have hndC' : (0 :: c' ++ [1] : List Nat).Nodup := hc' ▸ hndE'
  have h01c' : 0 ∉ c' ∧ 1 ∉ c' ∧ c'.Nodup := by
    rw [List.cons_append, List.nodup_cons, List.nodup_append] at hndC'
    obtain ⟨h0, hnd, _, hdisj2⟩ := hndC'
    refine ⟨fun hm => h0 (List.mem_append.2 (Or.inl hm)), ?_, hnd⟩
    intro hm
    exact hdisj2 hm (List.mem_singleton.2 rfl)
  constructor
  · -- chain
    rw [hc'.symm]
    apply List.chain'_append.2
    refine ⟨?_, ?_, ?_⟩
    · apply chain'_imp_mem e1 hch1
      intro x y hx hy hR
      have hy2 : y ∈ e1 := (List.tail_sublist e1).subset hy
      constructor
      · rw [insert_nextPtr_ne l item a b (fun h => haE1 (h ▸ hx))
          (fun h => hfE1 (h ▸ hx))]
        exact hR.1
      · rw [insert_prevPtr_ne l item a b (fun h => hbE1 (h ▸ hy2))
          (fun h => hfE1 (h ▸ hy2))]
        exact hR.2
    · rw [List.chain'_cons]
      refine ⟨⟨insert_nextPtr_a l item b ha1 hamap haf,
        insert_prevPtr_f l item hf2 haf hbf⟩, ?_⟩
      rw [List.chain'_cons]
      refine ⟨⟨insert_nextPtr_f l item hf2 haf hbf,
        insert_prevPtr_b l item a hb0 hbmap hbf⟩, ?_⟩
      apply chain'_imp_mem _ hchBE2
      intro x y hx hy hR
      have hy2 : y ∈ e2 := hy
      have hxa : x ≠ a := by
        intro hEq
        subst hEq
        rcases List.mem_cons.1 hx with h | h
        exacts [hab h, haE2 h]
      have hxf : x ≠ l.fresh := by
        intro hEq
        subst hEq
        rcases List.mem_cons.1 hx with h | h
        exacts [hbf h.symm, hfE2 h]
      constructor
      · rw [insert_nextPtr_ne l item a b hxa hxf]
        exact hR.1
      · rw [insert_prevPtr_ne l item a b (fun h => hbE2 (h ▸ hy2))
          (fun h => hfE2 (h ▸ hy2))]
        exact hR.2
    · intro x hx y hy
      rw [List.head?_cons, Option.mem_some_iff] at hy
      subst hy
      have hxmem : x ∈ e1 := mem_of_getLast?_eq (Option.mem_def.1 hx)
      have hR := hbound x hx a (by rw [List.head?_cons]; rfl)
      constructor
      · rw [insert_nextPtr_ne l item a b (fun h => haE1 (h ▸ hxmem))
          (fun h => hfE1 (h ▸ hxmem))]
        exact hR.1
      · rw [insert_prevPtr_ne l item a b hab haf]
        exact hR.2
  · -- nodup
    exact h01c'.2.2
  · -- nodupKeys
    rw [insertNode_keys]
    rw [List.nodup_cons]
    refine ⟨?_, hInv.nodupKeys⟩
    intro hm
    obtain ⟨nd, hnd⟩ := getEntry_some_of_key_mem hm
    have := inv_fresh_unmapped hInv
    rw [DoublyLinkedBase.getNode] at this
    rw [this] at hnd
    exact Option.noConfusion hnd
  · -- mem_live
    intro i hi
    have hiE' : i ∈ e1 ++ a :: l.fresh :: b :: e2 := by
      rw [hc']
      exact ext_elem.2 (Or.inr (Or.inl hi))
    rcases List.mem_cons.1 (hpermE.mem_iff.1 hiE') with hif | hiext
    · subst hif
      exact ⟨⟨item, a, b, false⟩, insert_getNode_f l item haf hbf, rfl⟩
    · rw [← hsplit] at hiext
      rcases ext_elem.1 hiext with h | h | h
      · subst h
        have h0c : (0 : Nat) ∈ c' := hi
        exact absurd h0c h01c'.1
      · obtain ⟨_, hilt, nd, hnd, hdep⟩ := inv_mem_c_facts hInv h
        have hif : i ≠ l.fresh := by omega
        have hmd := insert_getNode_map_dep l item a b hif
        rw [hnd] at hmd
        simp only [Option.map_some'] at hmd
        rw [hdep] at hmd
        obtain ⟨nd', hnd', hd'⟩ := Option.map_eq_some'.1 hmd
        exact ⟨nd', hnd', hd'⟩
      · subst h
        have h1c : (1 : Nat) ∈ c' := hi
        exact absurd h1c h01c'.2.1
  · -- live_mem
    intro i nd' hnd' hdep'
    by_cases hif : i = l.fresh
    · subst hif
      have hfE' : l.fresh ∈ e1 ++ a :: l.fresh :: b :: e2 :=
        List.mem_append.2 (Or.inr (List.mem_cons_of_mem _ (List.mem_cons_self _ _)))
      rw [hc'] at hfE'
      rcases ext_elem.1 hfE' with h | h | h
      · omega
      · exact h
      · omega
    · have hmd := insert_getNode_map_dep l item a b hif
      rw [hnd'] at hmd
      simp only [Option.map_some'] at hmd
      rw [hdep'] at hmd
      obtain ⟨nd0, hnd0, hd0⟩ := Option.map_eq_some'.1 hmd.symm
      have hic : i ∈ c := hInv.live_mem i nd0 hnd0 hd0
      have hiext : i ∈ 0 :: c ++ [1] := ext_elem.2 (Or.inr (Or.inl hic))
      rw [hsplit] at hiext
      have hiE' : i ∈ e1 ++ a :: l.fresh :: b :: e2 :=
        hpermE.mem_iff.2 (List.mem_cons_of_mem _ hiext)
      rw [hc'] at hiE'
      have h2i := (inv_mem_c_facts hInv hic).1
      rcases ext_elem.1 hiE' with h | h | h
      · omega
      · exact h
      · omega
  · -- keys_range
    intro i nd' hnd'
    have hkm : i ∈ (l.insertNode item a b).1.nodes.map Prod.fst :=
      key_mem_of_getEntry_some hnd'
    rw [insertNode_keys] at hkm
    rw [insertNode_fresh]
    rcases List.mem_cons.1 hkm with h | h
    · omega
    · obtain ⟨nd0, hnd0⟩ := getEntry_some_of_key_mem h
      have := hInv.keys_range i nd0 hnd0
      omega
  · -- fresh_ge
    rw [insertNode_fresh]
    omega
  · -- size_eq
    rw [insertNode_size, hInv.size_eq]
    have hL1 := congrArg List.length hsplit
    have hL2 := congrArg List.length hc'
    simp only [List.cons_append, List.length_cons, List.length_append,
      List.length_singleton] at hL1 hL2
    have : c'.length = c.length + 1 := by omega
    rw [this]
    push_cast
    ring

theorem setDeprecated_keys {α : Type} (l : DoublyLinkedBase α) (j : Nat) :
    (setDeprecated l j).nodes.map Prod.fst = l.nodes.map Prod.fst :=
  keys_updNode l.nodes j fun nd => { nd with deprecated := true }

theorem setDeprecated_fresh {α : Type} (l : DoublyLinkedBase α) (j : Nat) :
    (setDeprecated l j).fresh = l.fresh := rfl

theorem setDeprecated_ident {α : Type} (l : DoublyLinkedBase α) (j : Nat) :
    (setDeprecated l j).ident = l.ident := rfl

theorem setDeprecated_size {α : Type} (l : DoublyLinkedBase α) (j : Nat) :
    (setDeprecated l j).size = l.size := rfl

theorem spsn_getNode_map_dep {α : Type} (l : DoublyLinkedBase α) (i av bv : Nat)
    {j : Nat} (hji : j ≠ i) :
    ((setPrev (setNext (setDeprecated l i) av bv) bv av).getNode j).map Node.deprecated
      = (l.getNode j).map Node.deprecated := by
  rw [getNode_map_dep_setPrev, getNode_map_dep_setNext,
    getNode_setDeprecated_ne _ _ hji]

theorem spsn_getNode_map_dep_self {α : Type} (l : DoublyLinkedBase α) (i av bv : Nat) :
    ((setPrev (setNext (setDeprecated l i) av bv) bv av).getNode i).map Node.deprecated
      = (l.getNode i).map fun _ => true := by
  rw [getNode_map_dep_setPrev, getNode_map_dep_setNext, getNode_setDeprecated_self]
  cases l.getNode i <;> rfl

theorem remove_inv {α : Type} {l : DoublyLinkedBase α} {c c1 c2 : List Nat} {i : Nat}
    (hInv : Inv l c) (hc : c = c1 ++ i :: c2) :
    ∃ nd, l.getNode i = some nd ∧ nd.deprecated = false ∧
      ∃ l', (setDeprecated l i).removeNode i = Except.ok (nd.data, l') ∧
        Inv l' (c1 ++ c2) := by
  have hic : i ∈ c := by
    rw [hc]
    exact List.mem_append.2 (Or.inr (List.mem_cons_self _ _))
  obtain ⟨hi2, hilt, nd, hnd, hdep⟩ := inv_mem_c_facts hInv hic
  have hextEq : (0 :: c ++ [1] : List Nat) = (0 :: c1) ++ i :: (c2 ++ [1]) := by
    rw [hc]
    simp
  have hchain0 := hInv.chain
  rw [hextEq] at hchain0
  obtain ⟨hchA0, hchIZ, hbnd⟩ := List.chain'_append.1 hchain0
  have hnodupExt := inv_extNodup hInv
  rw [hextEq] at hnodupExt
  obtain ⟨hndA0, hndIZ, hdisj⟩ := List.nodup_append.1 hnodupExt
  have hiA0 : i ∉ 0 :: c1 := fun hm => hdisj hm (List.mem_cons_self _ _)
  have hiZ : i ∉ c2 ++ [1] := by
    rw [List.nodup_cons] at hndIZ
    exact hndIZ.1
  have hndZ : (c2 ++ [1]).Nodup := by
    rw [List.nodup_cons] at hndIZ
    exact hndIZ.2
  -- the element after i
  obtain ⟨bz, Z', hZ⟩ : ∃ bz Z', (c2 ++ [1] : List Nat) = bz :: Z' := by
    cases hzz : (c2 ++ [1] : List Nat) with
    | nil => exact absurd hzz (by simp)
    | cons bz Z' => exact ⟨bz, Z', rfl⟩
  -- the element before i
  have hA0ne : (0 :: c1 : List Nat) ≠ [] := by simp
  set a := (0 :: c1 : List Nat).getLast hA0ne with hadef
  have hA0last : (0 :: c1 : List Nat).getLast? = some a :=
    List.getLast?_eq_getLast _ hA0ne
  have hlai : linked l a i := by
    apply hbnd a hA0last
    rw [hZ]
    rfl
  have hlibz : linked l i bz := by
    rw [hZ] at hchIZ
    exact (List.chain'_cons.1 hchIZ).1
  have hndprev : nd.prev = a := by
    have := hlai.2
    rw [prevPtr, if_neg (by omega), if_neg (by omega), hnd] at this
    simpa using this
  have hndnext : nd.next = bz := by
    have := hlibz.1
    rw [nextPtr, if_neg (by omega), if_neg (by omega), hnd] at this
    simpa using this
  have haA0 : a ∈ (0 :: c1 : List Nat) := List.getLast_mem hA0ne
  have hbzZ : bz ∈ c2 ++ [1] := by
    rw [hZ]
    exact List.mem_cons_self _ _
  have hai : a ≠ i := fun hEq => hiA0 (hEq ▸ haA0)
  have hbzi : bz ≠ i := fun hEq => hiZ (hEq ▸ hbzZ)
  have habz : a ≠ bz := fun hEq => hdisj haA0 (List.mem_cons_of_mem _ (hEq ▸ hbzZ))
  have ha1 : a ≠ 1 := by
    intro hEq
    have := hlai.1
    rw [hEq] at this
    simp [nextPtr] at this
  have hbz0 : bz ≠ 0 := by
    intro hEq
    have := hlibz.2
    rw [hEq] at this
    simp [prevPtr] at this
  have haC : a = 0 ∨ a ∈ c := by
    rcases List.mem_cons.1 haA0 with h | h
    · exact Or.inl h
    · right
      rw [hc]
      exact List.mem_append.2 (Or.inl h)
  have hbzC : bz = 1 ∨ bz ∈ c := by
    rcases List.mem_append.1 hbzZ with h | h
    · right
      rw [hc]
      exact List.mem_append.2 (Or.inr (List.mem_cons_of_mem _ h))
    · left
      simpa using h
  have hamap : a = 0 ∨ ∃ nda, l.getNode a = some nda := by
    rcases haC with h | h
    · exact Or.inl h
    · obtain ⟨_, _, nda, hnda, _⟩ := inv_mem_c_facts hInv h
      exact Or.inr ⟨nda, hnda⟩
  have hbzmap : bz = 1 ∨ ∃ ndb, l.getNode bz = some ndb := by
    rcases hbzC with h | h
    · exact Or.inl h
    · obtain ⟨_, _, ndb, hndb, _⟩ := inv_mem_c_facts hInv h
      exact Or.inr ⟨ndb, hndb⟩
  have hnd4 : (setDeprecated l i).getNode i = some ⟨nd.data, nd.prev, nd.next, true⟩ := by
    rw [getNode_setDeprecated_self, hnd]
    rfl
  refine ⟨nd, hnd, hdep,
    { setPrev (setNext (setDeprecated l i) nd.prev nd.next) nd.next nd.prev with
        size := (setPrev (setNext (setDeprecated l i) nd.prev nd.next) nd.next
          nd.prev).size - 1 },
    ?_, ?_⟩
  · rw [DoublyLinkedBase.removeNode, if_neg (by omega)]
    rw [hnd4]
  · -- the invariant for the shrunk chain
    rw [hndprev, hndnext]
    constructor
    · -- chain
      have hextEq2 : (0 :: (c1 ++ c2) ++ [1] : List Nat) = (0 :: c1) ++ (c2 ++ [1]) := by
        simp
      rw [hextEq2]
      apply List.chain'_append.2
      refine ⟨?_, ?_, ?_⟩
      · apply chain'_imp_mem _ hchA0
        intro x y hx hy hR
        have hy2 : y ∈ (0 :: c1 : List Nat) := (List.tail_sublist _).subset hy
        by_cases hxa : x = a
        · subst hxa
          have : (some y : Option Nat) = some i := by
            rw [← hR.1, hlai.1]
          exfalso
          apply hiA0
          have hyi : y = i := Option.some.inj this
          rw [← hyi]
          exact hy2
        · constructor
          · rw [nextPtr_size_irrel, nextPtr_setPrev, nextPtr_setNext_ne _ _ _ hxa,
              nextPtr_setDeprecated]
            exact hR.1
          · have hybz : y ≠ bz := by
              intro hEq
              exact hdisj (hEq ▸ hy2) (List.mem_cons_of_mem _ hbzZ)
            rw [prevPtr_size_irrel, prevPtr_setPrev_ne _ _ _ hybz,
              prevPtr_setNext, prevPtr_setDeprecated]
            exact hR.2
      · have hchZ : List.Chain' (linked l) (c2 ++ [1]) := by
          rw [hZ]
          rw [hZ] at hchIZ
          exact (List.chain'_cons.1 hchIZ).2
        apply chain'_imp_mem _ hchZ
        intro x y hx hy hR
        have hy2 : y ∈ c2 ++ [1] := (List.tail_sublist _).subset hy
        have hxa : x ≠ a := fun hEq => hdisj (hEq ▸ haA0) (List.mem_cons_of_mem _ hx)
        constructor
        · rw [nextPtr_size_irrel, nextPtr_setPrev, nextPtr_setNext_ne _ _ _ hxa,
            nextPtr_setDeprecated]
          exact hR.1
        · have hybz : y ≠ bz := by
            intro hEq
            subst hEq
            rw [hZ] at hy
            rw [hZ, List.nodup_cons] at hndZ
            exact hndZ.1 hy
          rw [prevPtr_size_irrel, prevPtr_setPrev_ne _ _ _ hybz, prevPtr_setNext,
            prevPtr_setDeprecated]
          exact hR.2
      · intro x hx y hy
        rw [hA0last, Option.mem_some_iff] at hx
        subst hx
        rw [hZ, List.head?_cons, Option.mem_some_iff] at hy
        subst hy
        constructor
        · rw [nextPtr_size_irrel, nextPtr_setPrev]
          apply nextPtr_setNext_self _ _ ha1
          rcases hamap with h | ⟨nda, hnda⟩
          · exact Or.inl h
          · right
            refine ⟨nda, ?_⟩
            rw [getNode_setDeprecated_ne _ _ hai, hnda]
        · rw [prevPtr_size_irrel]
          apply prevPtr_setPrev_self _ _ hbz0
          rcases hbzmap with h | ⟨ndb, hndb⟩
          · exact Or.inl h
          · right
            refine ⟨ndb, ?_⟩
            rw [getNode_setNext_ne _ _ _ (fun h => habz h.symm),
              getNode_setDeprecated_ne _ _ hbzi, hndb]
    · -- nodup
      apply hInv.nodup.sublist
      rw [hc]
      exact (List.sublist_cons_self i c2).append_left c1
    · -- nodupKeys
      show ((setPrev _ _ _).nodes.map Prod.fst).Nodup
      rw [setPrev_keys, setNext_keys, setDeprecated_keys]
      exact hInv.nodupKeys
    · -- mem_live
      intro j hj
      have hji : j ≠ i := by
        intro hEq
        subst hEq
        rcases List.mem_append.1 hj with h | h
        · exact hiA0 (List.mem_cons_of_mem _ h)
        · exact hiZ (List.mem_append.2 (Or.inl h))
      have hjc : j ∈ c := by
        rw [hc]
        rcases List.mem_append.1 hj with h | h
        · exact List.mem_append.2 (Or.inl h)
        · exact List.mem_append.2 (Or.inr (List.mem_cons_of_mem _ h))
      obtain ⟨_, _, ndj, hndj, hdepj⟩ := inv_mem_c_facts hInv hjc
      have hmd : (DoublyLinkedBase.getNode
            { setPrev (setNext (setDeprecated l i) a bz) bz a with
                size := (setPrev (setNext (setDeprecated l i) a bz) bz a).size - 1 } j).map Node.deprecated
          = (l.getNode j).map Node.deprecated := by
        rw [getNode_size_irrel]
        exact spsn_getNode_map_dep l i a bz hji
      rw [hndj] at hmd
      simp only [Option.map_some'] at hmd
      rw [hdepj] at hmd
      obtain ⟨ndj', hndj', hdj'⟩ := Option.map_eq_some'.1 hmd
      exact ⟨ndj', hndj', hdj'⟩
    · -- live_mem
      intro j ndj' hndj' hdepj'
      by_cases hji : j = i
      · subst hji
        exfalso
        have hmd : (DoublyLinkedBase.getNode
              { setPrev (setNext (setDeprecated l j) a bz) bz a with
                size := (setPrev (setNext (setDeprecated l j) a bz) bz a).size - 1 } j).map Node.deprecated
            = (l.getNode j).map fun _ => true := by
          rw [getNode_size_irrel]
          exact spsn_getNode_map_dep_self l j a bz
        rw [hndj', hnd] at hmd
        simp only [Option.map_some'] at hmd
        rw [hdepj'] at hmd
        exact Bool.noConfusion (Option.some.injEq _ _ ▸ hmd)
      · have hmd : (DoublyLinkedBase.getNode
              { setPrev (setNext (setDeprecated l i) a bz) bz a with
                size := (setPrev (setNext (setDeprecated l i) a bz) bz a).size - 1 } j).map Node.deprecated
            = (l.getNode j).map Node.deprecated := by
          rw [getNode_size_irrel]
          exact spsn_getNode_map_dep l i a bz hji
        rw [hndj'] at hmd
        simp only [Option.map_some'] at hmd
        rw [hdepj'] at hmd
        obtain ⟨ndj, hndj, hdj⟩ := Option.map_eq_some'.1 hmd.symm
        have hjc := hInv.live_mem j ndj hndj hdj
        rw [hc] at hjc
        rcases List.mem_append.1 hjc with h | h
        · exact List.mem_append.2 (Or.inl h)
        · rcases List.mem_cons.1 h with h2 | h2
          · exact absurd h2 hji
          · exact List.mem_append.2 (Or.inr h2)
    · -- keys_range
      intro j ndj' hndj'
      have hndj2 : (setPrev (setNext (setDeprecated l i) a bz) bz a).getNode j
          = some ndj' := hndj'
      have hkm : j ∈ (setPrev (setNext (setDeprecated l i) a bz) bz a).nodes.map
          Prod.fst := key_mem_of_getEntry_some hndj2
      rw [setPrev_keys, setNext_keys, setDeprecated_keys] at hkm
      obtain ⟨ndj, hndj⟩ := getEntry_some_of_key_mem hkm
      have hrange := hInv.keys_range j ndj hndj
      show 2 ≤ j ∧ j < (setPrev (setNext (setDeprecated l i) a bz) bz a).fresh
      rw [setPrev_fresh, setNext_fresh, setDeprecated_fresh]
      exact hrange
    · -- fresh_ge
      show 2 ≤ (setPrev (setNext (setDeprecated l i) a bz) bz a).fresh
      rw [setPrev_fresh, setNext_fresh, setDeprecated_fresh]
      exact hInv.fresh_ge
    · -- size_eq
      show (setPrev _ _ _).size - 1 = _
      rw [setPrev_size, setNext_size, setDeprecated_size, hInv.size_eq]
      have : c.length = c1.length + 1 + c2.length := by
        rw [hc]
        simp
        omega
      rw [this]
      simp only [List.length_append]
      push_cast
      ring

/-! Frame lemmas for `setData` and the `validate` success case. -/

theorem setData_keys {α : Type} (l : DoublyLinkedBase α) (j : Nat) (x : α) :
    (setData l j x).nodes.map Prod.fst = l.nodes.map Prod.fst :=
  keys_updNode l.nodes j fun nd => { nd with data := x }

theorem setData_fresh {α : Type} (l : DoublyLinkedBase α) (j : Nat) (x : α) :
    (setData l j x).fresh = l.fresh := rfl

theorem setData_size {α : Type} (l : DoublyLinkedBase α) (j : Nat) (x : α) :
    (setData l j x).size = l.size := rfl

theorem validate_ok {α : Type} {l : DoublyLinkedBase α} {p : Position} {nd : Node α}
    (h : PositionalList.validate l p = Except.ok nd) :
    p.owner = l.ident ∧ l.getNode p.node = some nd ∧ nd.deprecated = false := by
  by_cases ho : p.owner = l.ident
  · cases hnd : l.getNode p.node with
    | none =>
      simp only [PositionalList.validate, if_neg (not_not_intro ho), hnd] at h
      exact Except.noConfusion h
    | some nd0 =>
      simp only [PositionalList.validate, if_neg (not_not_intro ho), hnd] at h
      by_cases hd : nd0.deprecated = true
      · rw [if_pos hd] at h
        exact Except.noConfusion h
      · rw [if_neg hd] at h
        have hnn : nd0 = nd := Except.ok.inj h
        subst hnn
        exact ⟨ho, rfl, by simpa using hd⟩
  · simp only [PositionalList.validate, if_pos ho] at h
    exact Except.noConfusion h

theorem ops_error_of_validate {α : Type} {l : DoublyLinkedBase α} {q : Position}
    {e : Err} (hv : PositionalList.validate l q = Except.error e) (item : α) :
    PositionalList.insert_before l q item = .error e ∧
    PositionalList.insert_after l q item = .error e ∧
    PositionalList.remove l q = .error e ∧
    PositionalList.replace l q item = .error e ∧
    PositionalList.position_before l q = .error e ∧
    PositionalList.position_after l q = .error e := by
  refine ⟨?_, ?_, ?_, ?_, ?_, ?_⟩ <;>
    simp only [PositionalList.insert_before, PositionalList.insert_after,
      PositionalList.remove, PositionalList.replace,
      PositionalList.position_before, PositionalList.position_after, hv]

/-! Preservation of the structural invariant by every public operation. -/

theorem inv_keys_bound {α : Type} {l : DoublyLinkedBase α} {c : List Nat}
    (hInv : Inv l c) : KeysBound l := by
  intro i hi
  obtain ⟨nd, hnd⟩ := getEntry_some_of_key_mem hi
  exact (hInv.keys_range i nd hnd).2

theorem empty_inv (α : Type) (ident : Nat) :
    Inv (DoublyLinkedBase.empty α ident) [] := by
  constructor
  · show List.Chain' (linked (DoublyLinkedBase.empty α ident)) [0, 1]
    exact List.chain'_cons.2 ⟨⟨rfl, rfl⟩, List.chain'_singleton _⟩
  · exact List.nodup_nil
  · exact List.nodup_nil
  · intro i hi
    simp at hi
  · intro i nd h _
    exact Option.noConfusion h
  · intro i nd h
    exact Option.noConfusion h
  · exact le_refl 2
  · rfl

theorem inv_neighbors {α : Type} {l : DoublyLinkedBase α} {c : List Nat}
    (hInv : Inv l c) {i : Nat} (hic : i ∈ c) :
    ∃ nd c1 c2, l.getNode i = some nd ∧ nd.deprecated = false ∧
      c = c1 ++ i :: c2 ∧
      nextPtr l nd.prev = some i ∧ prevPtr l nd.next = some i ∧
      (∃ A1, (0 :: c1 : List Nat) = A1 ++ [nd.prev]) ∧
      (∃ Z1, (c2 ++ [1] : List Nat) = nd.next :: Z1) := by
  obtain ⟨c1, c2, hc⟩ := List.append_of_mem hic
  obtain ⟨hi2, _, nd, hnd, hdep⟩ := inv_mem_c_facts hInv hic
  have hextEq : (0 :: c ++ [1] : List Nat) = (0 :: c1) ++ i :: (c2 ++ [1]) := by
    rw [hc]
    simp
  have hchain0 := hInv.chain
  rw [hextEq] at hchain0
  obtain ⟨hchA0, hchIZ, hbnd⟩ := List.chain'_append.1 hchain0
  obtain ⟨bz, Z', hZ⟩ : ∃ bz Z', (c2 ++ [1] : List Nat) = bz :: Z' := by
    cases hzz : (c2 ++ [1] : List Nat) with
    | nil => exact absurd hzz (by simp)
    | cons x xs => exact ⟨x, xs, rfl⟩
  have hA0ne : (0 :: c1 : List Nat) ≠ [] := by simp
  have hA0last : (0 :: c1 : List Nat).getLast? =
      some ((0 :: c1 : List Nat).getLast hA0ne) :=
    List.getLast?_eq_getLast _ hA0ne
  have hlai : linked l ((0 :: c1 : List Nat).getLast hA0ne) i := by
    apply hbnd _ hA0last
    rfl
  have hlibz : linked l i bz := by
    rw [hZ] at hchIZ
    exact (List.chain'_cons.1 hchIZ).1
  have hndprev : nd.prev = (0 :: c1 : List Nat).getLast hA0ne := by
    have h := hlai.2
    rw [prevPtr, if_neg (by omega), if_neg (by omega), hnd] at h
    simpa using h
  have hndnext : nd.next = bz := by
    have h := hlibz.1
    rw [nextPtr, if_neg (by omega), if_neg (by omega), hnd] at h
    simpa using h
  refine ⟨nd, c1, c2, hnd, hdep, hc, ?_, ?_, ?_, ?_⟩
  · rw [hndprev]
    exact hlai.1
  · rw [hndnext]
    exact hlibz.2
  · refine ⟨(0 :: c1 : List Nat).dropLast, ?_⟩
    rw [hndprev]
    exact (List.dropLast_append_getLast hA0ne).symm
  · refine ⟨Z', ?_⟩
    rw [hndnext]
    exact hZ

theorem applyInsertFirst_wf {α : Type} {l : DoublyLinkedBase α}
    (hWF : WF l) (item : α) : WF (PositionalList.applyInsertFirst l item) := by
  obtain ⟨c, hInv⟩ := hWF
  obtain ⟨h2, t2, ht2⟩ : ∃ h2 t2, (c ++ [1] : List Nat) = h2 :: t2 := by
    cases hzz : (c ++ [1] : List Nat) with
    | nil => exact absurd hzz (by simp)
    | cons x xs => exact ⟨x, xs, rfl⟩
  have hch := hInv.chain
  rw [List.cons_append, ht2] at hch
  have hh2 : l.headerNext = h2 := by
    have h := (List.chain'_cons.1 hch).1.1
    rw [nextPtr, if_pos rfl] at h
    exact Option.some.inj h
  have hsplit : (0 :: c ++ [1] : List Nat) = [] ++ 0 :: l.headerNext :: t2 := by
    rw [List.nil_append, List.cons_append, ht2, hh2]
  obtain ⟨c', _, hInv'⟩ := insert_splice hInv hsplit item
  exact ⟨c', hInv'⟩

theorem applyInsertLast_wf {α : Type} {l : DoublyLinkedBase α}
    (hWF : WF l) (item : α) : WF (PositionalList.applyInsertLast l item) := by
  obtain ⟨c, hInv⟩ := hWF
  have hne : (0 :: c : List Nat) ≠ [] := by simp
  obtain ⟨hchA, _, hbnd⟩ := List.chain'_append.1 hInv.chain
  have hlast : (0 :: c : List Nat).getLast? =
      some ((0 :: c : List Nat).getLast hne) :=
    List.getLast?_eq_getLast _ hne
  have hlink : linked l ((0 :: c : List Nat).getLast hne) 1 := by
    apply hbnd _ hlast
    rfl
  have ha : (0 :: c : List Nat).getLast hne = l.trailerPrev := by
    have h := hlink.2
    rw [prevPtr, if_pos rfl] at h
    exact (Option.some.inj h).symm
  have hsplit : (0 :: c ++ [1] : List Nat)
      = (0 :: c : List Nat).dropLast ++ l.trailerPrev :: 1 :: [] := by
    have h1 : (0 :: c : List Nat) ++ [1]
        = ((0 :: c : List Nat).dropLast ++ [(0 :: c : List Nat).getLast hne]) ++ [1] :=
      congrArg (fun t => t ++ [1]) (List.dropLast_append_getLast hne).symm
    rw [h1, ha, List.append_assoc]
    rfl
  obtain ⟨c', _, hInv'⟩ := insert_splice hInv hsplit item
  exact ⟨c', hInv'⟩

theorem applyInsertBefore_wf {α : Type} {l : DoublyLinkedBase α}
    (hWF : WF l) (p : Position) (item : α) :
    WF (PositionalList.applyInsertBefore l p item) := by
  obtain ⟨c, hInv⟩ := hWF
  cases hv : PositionalList.validate l p with
  | error e =>
    have hred : PositionalList.applyInsertBefore l p item = l := by
      simp [PositionalList.applyInsertBefore, PositionalList.insert_before, hv]
    rw [hred]
    exact ⟨c, hInv⟩
  | ok nd =>
    obtain ⟨_, hnd, hdep⟩ := validate_ok hv
    have hic : p.node ∈ c := hInv.live_mem _ _ hnd hdep
    obtain ⟨nd', c1, c2, hnd', hdep', hc, _, _, ⟨A1, hA1⟩, _⟩ :=
      inv_neighbors hInv hic
    rw [hnd] at hnd'
    have hnn : nd = nd' := Option.some.inj hnd'
    subst hnn
    have hsplit : (0 :: c ++ [1] : List Nat)
        = A1 ++ nd.prev :: p.node :: (c2 ++ [1]) := by
      have hextEq : (0 :: c ++ [1] : List Nat) = (0 :: c1) ++ p.node :: (c2 ++ [1]) := by
        rw [hc]
        simp
      rw [hextEq, hA1, List.append_assoc]
      rfl
    obtain ⟨c', _, hInv'⟩ := insert_splice hInv hsplit item
    have hred : PositionalList.applyInsertBefore l p item
        = (l.insertNode item nd.prev p.node).1 := by
      simp [PositionalList.applyInsertBefore, PositionalList.insert_before, hv]
    rw [hred]
    exact ⟨c', hInv'⟩

theorem applyInsertAfter_wf {α : Type} {l : DoublyLinkedBase α}
    (hWF : WF l) (p : Position) (item : α) :
    WF (PositionalList.applyInsertAfter l p item) := by
  obtain ⟨c, hInv⟩ := hWF
  cases hv : PositionalList.validate l p with
  | error e =>
    have hred : PositionalList.applyInsertAfter l p item = l := by
      simp [PositionalList.applyInsertAfter, PositionalList.insert_after, hv]
    rw [hred]
    exact ⟨c, hInv⟩
  | ok nd =>
    obtain ⟨_, hnd, hdep⟩ := validate_ok hv
    have hic : p.node ∈ c := hInv.live_mem _ _ hnd hdep
    obtain ⟨nd', c1, c2, hnd', hdep', hc, _, _, _, ⟨Z1, hZ1⟩⟩ :=
      inv_neighbors hInv hic
    rw [hnd] at hnd'
    have hnn : nd = nd' := Option.some.inj hnd'
    subst hnn
    have hsplit : (0 :: c ++ [1] : List Nat)
        = (0 :: c1) ++ p.node :: nd.next :: Z1 := by
      have hextEq : (0 :: c ++ [1] : List Nat) = (0 :: c1) ++ p.node :: (c2 ++ [1]) := by
        rw [hc]
        simp
      rw [hextEq, hZ1]
    obtain ⟨c', _, hInv'⟩ := insert_splice hInv hsplit item
    have hred : PositionalList.applyInsertAfter l p item
        = (l.insertNode item p.node nd.next).1 := by
      simp [PositionalList.applyInsertAfter, PositionalList.insert_after, hv]
    rw [hred]
    exact ⟨c', hInv'⟩

theorem applyRemove_wf {α : Type} {l : DoublyLinkedBase α}
    (hWF : WF l) (p : Position) : WF (PositionalList.applyRemove l p) := by
  obtain ⟨c, hInv⟩ := hWF
  cases hv : PositionalList.validate l p with
  | error e =>
    have hred : PositionalList.applyRemove l p = l := by
      simp [PositionalList.applyRemove, PositionalList.remove, hv]
    rw [hred]
    exact ⟨c, hInv⟩
  | ok nd0 =>
    obtain ⟨_, hnd0, hdep0⟩ := validate_ok hv
    have hic : p.node ∈ c := hInv.live_mem _ _ hnd0 hdep0
    obtain ⟨c1, c2, hc⟩ := List.append_of_mem hic
    obtain ⟨nd, hnd, hdep, l', hok, hInv'⟩ := remove_inv hInv hc
    have hred : PositionalList.applyRemove l p = l' := by
      simp [PositionalList.applyRemove, PositionalList.remove, hv, hok]
    rw [hred]
    exact ⟨c1 ++ c2, hInv'⟩

theorem applyReplace_wf {α : Type} {l : DoublyLinkedBase α}
    (hWF : WF l) (p : Position) (item : α) :
    WF (PositionalList.applyReplace l p item) := by
  obtain ⟨c, hInv⟩ := hWF
  cases hv : PositionalList.validate l p with
  | error e =>
    have hred : PositionalList.applyReplace l p item = l := by
      simp [PositionalList.applyReplace, PositionalList.replace, hv]
    rw [hred]
    exact ⟨c, hInv⟩
  | ok nd0 =>
    have hred : PositionalList.applyReplace l p item = setData l p.node item := by
      simp [PositionalList.applyReplace, PositionalList.replace, hv]
    rw [hred]
    refine ⟨c, ?_⟩
    constructor
    · exact chain'_imp_mem _ hInv.chain fun u v _ _ hR =>
        ⟨by rw [nextPtr_setData]; exact hR.1, by rw [prevPtr_setData]; exact hR.2⟩
    · exact hInv.nodup
    · show ((setData l p.node item).nodes.map Prod.fst).Nodup
      rw [setData_keys]
      exact hInv.nodupKeys
    · intro i hi
      obtain ⟨nd, hnd, hdep⟩ := hInv.mem_live i hi
      have hmd := getNode_map_dep_setData l p.node item i
      rw [hnd] at hmd
      simp only [Option.map_some'] at hmd
      rw [hdep] at hmd
      obtain ⟨nd', hnd', hdep'⟩ := Option.map_eq_some'.1 hmd
      exact ⟨nd', hnd', hdep'⟩
    · intro i nd' hnd' hdep'
      have hmd := getNode_map_dep_setData l p.node item i
      rw [hnd'] at hmd
      simp only [Option.map_some'] at hmd
      rw [hdep'] at hmd
      obtain ⟨nd, hnd, hdep⟩ := Option.map_eq_some'.1 hmd.symm
      exact hInv.live_mem i nd hnd hdep
    · intro i nd' hnd'
      have hkm : i ∈ (setData l p.node item).nodes.map Prod.fst :=
        key_mem_of_getEntry_some hnd'
      rw [setData_keys] at hkm
      obtain ⟨nd, hnd⟩ := getEntry_some_of_key_mem hkm
      have hr := hInv.keys_range i nd hnd
      show 2 ≤ i ∧ i < (setData l p.node item).fresh
      rw [setData_fresh]
      exact hr
    · show 2 ≤ (setData l p.node item).fresh
      rw [setData_fresh]
      exact hInv.fresh_ge
    · show (setData l p.node item).size = _
      rw [setData_size]
      exact hInv.size_eq

theorem reach_wf {α : Type} {l : DoublyLinkedBase α} (h : Reach l) : WF l := by
  induction h with
  | empty ident => exact ⟨[], empty_inv α ident⟩
  | insert_first item _ ih => exact applyInsertFirst_wf ih item
  | insert_last item _ ih => exact applyInsertLast_wf ih item
  | insert_before p item _ ih => exact applyInsertBefore_wf ih p item
  | insert_after p item _ ih => exact applyInsertAfter_wf ih p item
  | remove p _ ih => exact applyRemove_wf ih p
  | replace p item _ ih => exact applyReplace_wf ih p item

/-! Forward traversal from the header visits exactly the invariant chain. -/

theorem traverseFrom_chain {α : Type} (l : DoublyLinkedBase α) :
    ∀ (d : List Nat) (fuel : Nat), d.length < fuel →
      (∀ j ∈ d, 2 ≤ j ∧ ∃ nd, l.getNode j = some nd) →
      List.Chain' (linked l) (d ++ [1]) →
      ∀ s, (d ++ [1] : List Nat).head? = some s →
      traverseFrom l s fuel = d := by
  intro d
  induction d with
  | nil =>
    intro fuel hf _ _ s hs
    have hs1 : s = 1 := by
      rw [List.nil_append, List.head?_cons] at hs
      exact (Option.some.inj hs).symm
    subst hs1
    cases fuel with
    | zero => exact (Nat.not_lt_zero _ hf).elim
    | succ f => simp [traverseFrom]
  | cons j d' ih =>
    intro fuel hf hmem hchain s hs
    have hsj : j = s := by
      rw [List.cons_append, List.head?_cons] at hs
      exact Option.some.inj hs
    subst hsj
    obtain ⟨hj2, nd, hnd⟩ := hmem j (List.mem_cons_self _ _)
    cases fuel with
    | zero => exact (Nat.not_lt_zero _ hf).elim
    | succ f =>
      obtain ⟨h2, t2, ht2⟩ : ∃ h2 t2, (d' ++ [1] : List Nat) = h2 :: t2 := by
        cases hzz : (d' ++ [1] : List Nat) with
        | nil => exact absurd hzz (by simp)
        | cons x xs => exact ⟨x, xs, rfl⟩
      rw [List.cons_append] at hchain
      have hchain2 := hchain
      rw [ht2] at hchain2
      have hlink := (List.chain'_cons.1 hchain2).1
      have hrest := (List.chain'_cons.1 hchain2).2
      have hnext : nd.next = h2 := by
        have h := hlink.1
        rw [nextPtr, if_neg (by omega), if_neg (by omega), hnd] at h
        simpa using h
      have hred : traverseFrom l j (f + 1) = j :: traverseFrom l nd.next f := by
        simp only [traverseFrom]
        rw [if_neg (by omega : ¬ j = 1), hnd]
      rw [hred]
      have hih : traverseFrom l nd.next f = d' := by
        apply ih f (by simp only [List.length_cons] at hf; omega)
          (fun x hx => hmem x (List.mem_cons_of_mem _ hx))
          (by rw [ht2]; exact hrest)
        rw [ht2, List.head?_cons, hnext]
      rw [hih]

theorem chainIds_eq {α : Type} {l : DoublyLinkedBase α} {c : List Nat}
    (hInv : Inv l c) : chainIds l = c := by
  have hsub : c ⊆ l.nodes.map Prod.fst := by
    intro i hi
    obtain ⟨nd, hnd, _⟩ := hInv.mem_live i hi
    exact key_mem_of_getEntry_some hnd
  have hlen : c.length ≤ l.nodes.length := by
    have h := (hInv.nodup.subperm hsub).length_le
    simpa using h
  obtain ⟨h2, t2, ht2⟩ : ∃ h2 t2, (c ++ [1] : List Nat) = h2 :: t2 := by
    cases hzz : (c ++ [1] : List Nat) with
    | nil => exact absurd hzz (by simp)
    | cons x xs => exact ⟨x, xs, rfl⟩
  have hch := hInv.chain
  rw [List.cons_append] at hch
  have hch2 := hch
  rw [ht2] at hch2
  have hh2 : l.headerNext = h2 := by
    have h := (List.chain'_cons.1 hch2).1.1
    rw [nextPtr, if_pos rfl] at h
    exact Option.some.inj h
  have hmem : ∀ j ∈ c, 2 ≤ j ∧ ∃ nd, l.getNode j = some nd := by
    intro j hj
    obtain ⟨h2j, _, nd, hnd, _⟩ := inv_mem_c_facts hInv hj
    exact ⟨h2j, nd, hnd⟩
  have hchainc : List.Chain' (linked l) (c ++ [1]) := hch.tail
  have hhead : (c ++ [1] : List Nat).head? = some l.headerNext := by
    rw [ht2, List.head?_cons, hh2]
  exact traverseFrom_chain l c (l.nodes.length + 1) (by omega) hmem hchainc
    l.headerNext hhead

/-! Permanence of retirement: the heap id of a removed node is never
reused (ids come from the growing `fresh` counter) and no operation ever
resets a `deprecated` flag. -/

theorem removeNode_frame {α : Type} (l : DoublyLinkedBase α) (i : Nat) :
    (∃ e, l.removeNode i = Except.error e) ∨
    ∃ nd m, l.getNode i = some nd ∧ l.removeNode i = Except.ok (nd.data, m) ∧
      m.nodes.map Prod.fst = l.nodes.map Prod.fst ∧ m.fresh = l.fresh ∧
      ∀ j, (m.getNode j).map Node.deprecated = (l.getNode j).map Node.deprecated := by
  by_cases h01 : i = 0 ∨ i = 1
  · left
    exact ⟨Err.removeSentinel, by simp only [DoublyLinkedBase.removeNode, if_pos h01]⟩
  · cases hnd : l.getNode i with
    | none =>
      left
      refine ⟨Err.invalidPosition, ?_⟩
      rw [DoublyLinkedBase.removeNode, if_neg h01]
      rw [hnd]
    | some nd =>
      right
      refine ⟨nd, { setPrev (setNext l nd.prev nd.next) nd.next nd.prev with
          size := (setPrev (setNext l nd.prev nd.next) nd.next nd.prev).size - 1 },
        rfl, ?_, ?_, ?_, ?_⟩
      · rw [DoublyLinkedBase.removeNode, if_neg h01]
        rw [hnd]
      · show (setPrev (setNext l nd.prev nd.next) nd.next nd.prev).nodes.map Prod.fst
            = l.nodes.map Prod.fst
        rw [setPrev_keys, setNext_keys]
      · show (setPrev (setNext l nd.prev nd.next) nd.next nd.prev).fresh = l.fresh
        rw [setPrev_fresh, setNext_fresh]
      · intro j
        rw [getNode_size_irrel, getNode_map_dep_setPrev, getNode_map_dep_setNext]

theorem keys_bound_insert {α : Type} {l : DoublyLinkedBase α} (hKB : KeysBound l)
    (item : α) (a b : Nat) : KeysBound (l.insertNode item a b).1 := by
  intro i hi
  rw [insertNode_keys] at hi
  rw [insertNode_fresh]
  rcases List.mem_cons.1 hi with h | h
  · omega
  · have := hKB i h
    omega

theorem keys_bound_step {α : Type} {l m : DoublyLinkedBase α}
    (hKB : KeysBound l) (h : Step1 l m) : KeysBound m := by
  cases h with
  | insert_first item => exact keys_bound_insert hKB item 0 l.headerNext
  | insert_last item => exact keys_bound_insert hKB item l.trailerPrev 1
  | insert_before p item =>
    cases hv : PositionalList.validate l p with
    | error e =>
      have hred : PositionalList.applyInsertBefore l p item = l := by
        simp [PositionalList.applyInsertBefore, PositionalList.insert_before, hv]
      rw [hred]
      exact hKB
    | ok nd1 =>
      have hred : PositionalList.applyInsertBefore l p item
          = (l.insertNode item nd1.prev p.node).1 := by
        simp [PositionalList.applyInsertBefore, PositionalList.insert_before, hv]
      rw [hred]
      exact keys_bound_insert hKB item nd1.prev p.node
  | insert_after p item =>
    cases hv : PositionalList.validate l p with
    | error e =>
      have hred : PositionalList.applyInsertAfter l p item = l := by
        simp [PositionalList.applyInsertAfter, PositionalList.insert_after, hv]
      rw [hred]
      exact hKB
    | ok nd1 =>
      have hred : PositionalList.applyInsertAfter l p item
          = (l.insertNode item p.node nd1.next).1 := by
        simp [PositionalList.applyInsertAfter, PositionalList.insert_after, hv]
      rw [hred]
      exact keys_bound_insert hKB item p.node nd1.next
  | remove p =>
    cases hv : PositionalList.validate l p with
    | error e =>
      have hred : PositionalList.applyRemove l p = l := by
        simp [PositionalList.applyRemove, PositionalList.remove, hv]
      rw [hred]
      exact hKB
    | ok nd0 =>
      rcases removeNode_frame (setDeprecated l p.node) p.node with ⟨e, he⟩ |
        ⟨nd1, m1, _, he, hkeys, hfresh, _⟩
      · have hred : PositionalList.applyRemove l p = l := by
          simp [PositionalList.applyRemove, PositionalList.remove, hv, he]
        rw [hred]
        exact hKB
      · have hred : PositionalList.applyRemove l p = m1 := by
          simp [PositionalList.applyRemove, PositionalList.remove, hv, he]
        rw [hred]
        intro i hi
        rw [hkeys, setDeprecated_keys] at hi
        rw [hfresh, setDeprecated_fresh]
        exact hKB i hi
  | replace p item =>
    cases hv : PositionalList.validate l p with
    | error e =>
      have hred : PositionalList.applyReplace l p item = l := by
        simp [PositionalList.applyReplace, PositionalList.replace, hv]
      rw [hred]
      exact hKB
    | ok nd0 =>
      have hred : PositionalList.applyReplace l p item = setData l p.node item := by
        simp [PositionalList.applyReplace, PositionalList.replace, hv]
      rw [hred]
      intro i hi
      rw [setData_keys] at hi
      rw [setData_fresh]
      exact hKB i hi
  | clear =>
    intro i hi
    exact hKB i hi

theorem dep_persist_step {α : Type} {l m : DoublyLinkedBase α} {j : Nat}
    (hKB : KeysBound l) (h : Step1 l m)
    (hdep : (l.getNode j).map Node.deprecated = some true) :
    (m.getNode j).map Node.deprecated = some true := by
  obtain ⟨nd, hnd, _⟩ := Option.map_eq_some'.1 hdep
  have hjf : j ≠ l.fresh := by
    have hkm : j ∈ l.nodes.map Prod.fst := key_mem_of_getEntry_some hnd
    have := hKB j hkm
    omega
  cases h with
  | insert_first item =>
    have hred : PositionalList.applyInsertFirst l item
        = (l.insertNode item 0 l.headerNext).1 := rfl
    rw [hred, insert_getNode_map_dep l item 0 l.headerNext hjf]
    exact hdep
  | insert_last item =>
    have hred : PositionalList.applyInsertLast l item
        = (l.insertNode item l.trailerPrev 1).1 := rfl
    rw [hred, insert_getNode_map_dep l item l.trailerPrev 1 hjf]
    exact hdep
  | insert_before p item =>
    cases hv : PositionalList.validate l p with
    | error e =>
      have hred : PositionalList.applyInsertBefore l p item = l := by
        simp [PositionalList.applyInsertBefore, PositionalList.insert_before, hv]
      rw [hred]
      exact hdep
    | ok nd1 =>
      have hred : PositionalList.applyInsertBefore l p item
          = (l.insertNode item nd1.prev p.node).1 := by
        simp [PositionalList.applyInsertBefore, PositionalList.insert_before, hv]
      rw [hred, insert_getNode_map_dep l item nd1.prev p.node hjf]
      exact hdep
  | insert_after p item =>
    cases hv : PositionalList.validate l p with
    | error e =>
      have hred : PositionalList.applyInsertAfter l p item = l := by
        simp [PositionalList.applyInsertAfter, PositionalList.insert_after, hv]
      rw [hred]
      exact hdep
    | ok nd1 =>
      have hred : PositionalList.applyInsertAfter l p item
          = (l.insertNode item p.node nd1.next).1 := by
        simp [PositionalList.applyInsertAfter, PositionalList.insert_after, hv]
      rw [hred, insert_getNode_map_dep l item p.node nd1.next hjf]
      exact hdep
  | remove p =>
    cases hv : PositionalList.validate l p with
    | error e =>
      have hred : PositionalList.applyRemove l p = l := by
        simp [PositionalList.applyRemove, PositionalList.remove, hv]
      rw [hred]
      exact hdep
    | ok nd0 =>
      rcases removeNode_frame (setDeprecated l p.node) p.node with ⟨e, he⟩ |
        ⟨nd1, m1, _, he, _, _, hdepmap⟩
      · have hred : PositionalList.applyRemove l p = l := by
          simp [PositionalList.applyRemove, PositionalList.remove, hv, he]
        rw [hred]
        exact hdep
      · have hred : PositionalList.applyRemove l p = m1 := by
          simp [PositionalList.applyRemove, PositionalList.remove, hv, he]
        rw [hred, hdepmap j]
        by_cases hjp : j = p.node
        · subst hjp
          rw [getNode_setDeprecated_self, hnd]
          rfl
        · rw [getNode_setDeprecated_ne _ _ hjp]
          exact hdep
  | replace p item =>
    cases hv : PositionalList.validate l p with
    | error e =>
      have hred : PositionalList.applyReplace l p item = l := by
        simp [PositionalList.applyReplace, PositionalList.replace, hv]
      rw [hred]
      exact hdep
    | ok nd0 =>
      have hred : PositionalList.applyReplace l p item = setData l p.node item := by
        simp [PositionalList.applyReplace, PositionalList.replace, hv]
      rw [hred, getNode_map_dep_setData]
      exact hdep
  | clear =>
    exact hdep

theorem retired_steps {α : Type} {j : Nat} :
    ∀ {l m : DoublyLinkedBase α}, Steps l m → KeysBound l →
      (l.getNode j).map Node.deprecated = some true →
      (m.getNode j).map Node.deprecated = some true := by
  intro l m h
  induction h with
  | refl _ => exact fun _ hdep => hdep
  | head s _ ih =>
    exact fun hKB hdep => ih (keys_bound_step hKB s) (dep_persist_step hKB s hdep)

/-- C3: after any sequence of the six mutating `PositionalList` operations
(`insert_first`, `insert_last`, `insert_before`, `insert_after`, `remove`,
`replace`) on a freshly constructed list — with arbitrary position
arguments, a rejected call leaving the state unchanged — the structural
invariant holds: every live node `n` satisfies `n.prev.next == n` and
`n.next.prev == n` (stated through the pointer maps `nextPtr` and
`prevPtr`), the header and trailer sentinels are never heap nodes (hence
never retired), every node visited by a forward traversal from the header
to the trailer is live, and `_size` equals the number of nodes on that
traversal. -/
theorem C3_structural_invariant_preserved {α : Type} {l : DoublyLinkedBase α}
    (h : Reach l) :
    (∀ i nd, l.getNode i = some nd → nd.deprecated = false →
      nextPtr l nd.prev = some i ∧ prevPtr l nd.next = some i) ∧
    l.getNode 0 = none ∧ l.getNode 1 = none ∧
    (∀ i ∈ chainIds l, ∃ nd, l.getNode i = some nd ∧ nd.deprecated = false) ∧
    l.size = ((chainIds l).length : Int) := by
  obtain ⟨c, hInv⟩ := reach_wf h
  have hce : chainIds l = c := chainIds_eq hInv
  refine ⟨?_, (inv_sentinels_unmapped hInv).1, (inv_sentinels_unmapped hInv).2,
    ?_, ?_⟩
  · intro i nd hnd hdep
    have hic := hInv.live_mem i nd hnd hdep
    obtain ⟨nd', _, _, hnd', _, _, hnp, hpp, _, _⟩ := inv_neighbors hInv hic
    rw [hnd] at hnd'
    have hnn : nd = nd' := Option.some.inj hnd'
    rw [hnn]
    exact ⟨hnp, hpp⟩
  · intro i hi
    rw [hce] at hi
    exact hInv.mem_live i hi
  · rw [hce]
    exact hInv.size_eq

/-- Witness for C3 at a concrete reachable state: the list with id `0`
holding the single item `7` inserted by `insert_first`. -/
theorem C3_witness :
    (∀ i nd,
        (PositionalList.applyInsertFirst (DoublyLinkedBase.empty Nat 0) 7).getNode i
            = some nd →
        nd.deprecated = false →
        nextPtr (PositionalList.applyInsertFirst (DoublyLinkedBase.empty Nat 0) 7)
            nd.prev = some i ∧
        prevPtr (PositionalList.applyInsertFirst (DoublyLinkedBase.empty Nat 0) 7)
            nd.next = some i) ∧
    (PositionalList.applyInsertFirst (DoublyLinkedBase.empty Nat 0) 7).getNode 0
        = none ∧
    (PositionalList.applyInsertFirst (DoublyLinkedBase.empty Nat 0) 7).getNode 1
        = none ∧
    (∀ i ∈ chainIds (PositionalList.applyInsertFirst (DoublyLinkedBase.empty Nat 0) 7),
      ∃ nd,
        (PositionalList.applyInsertFirst (DoublyLinkedBase.empty Nat 0) 7).getNode i
            = some nd ∧ nd.deprecated = false) ∧
    (PositionalList.applyInsertFirst (DoublyLinkedBase.empty Nat 0) 7).size
      = ((chainIds
          (PositionalList.applyInsertFirst (DoublyLinkedBase.empty Nat 0) 7)).length
        : Int) :=
  C3_structural_invariant_preserved (Reach.insert_first 7 (Reach.empty 0))

/-- C2: after `remove(p)` succeeds on a reachable `PositionalList` state,
the node `p` refers to is retired in the resulting state and stays retired
across every further sequence of operations (the six mutating operations
with arbitrary arguments, and `clear`): any position `q` referring to that
same node is rejected with the InvalidPosition error (`ValueError`) by all
six position-taking operations, and no sequence of operations ever returns
the retired node to the live state. -/
theorem C2_remove_permanently_invalidates {α : Type}
    {l l1 : DoublyLinkedBase α} {p : Position} {v : α} (hre : Reach l)
    (hrem : PositionalList.remove l p = Except.ok (v, l1)) :
    (l1.getNode p.node).map Node.deprecated = some true ∧
    ∀ l2 : DoublyLinkedBase α, Steps l1 l2 →
      ((l2.getNode p.node).map Node.deprecated = some true ∧
        ∀ (q : Position) (item : α), q.node = p.node →
          PositionalList.insert_before l2 q item = .error .invalidPosition ∧
          PositionalList.insert_after l2 q item = .error .invalidPosition ∧
          PositionalList.remove l2 q = .error .invalidPosition ∧
          PositionalList.replace l2 q item = .error .invalidPosition ∧
          PositionalList.position_before l2 q = .error .invalidPosition ∧
          PositionalList.position_after l2 q = .error .invalidPosition) := by
  obtain ⟨c, hInv⟩ := reach_wf hre
  have hKB : KeysBound l := inv_keys_bound hInv
  have hl1 : (l1.getNode p.node).map Node.deprecated = some true := by
    cases hv : PositionalList.validate l p with
    | error e =>
      simp only [PositionalList.remove, hv] at hrem
      exact Except.noConfusion hrem
    | ok nd0 =>
      simp only [PositionalList.remove, hv] at hrem
      rcases removeNode_frame (setDeprecated l p.node) p.node with ⟨e, he⟩ |
        ⟨nd1, m1, _, he, _, _, hdepmap⟩
      · rw [he] at hrem
        exact Except.noConfusion hrem
      · rw [he] at hrem
        have h2 := Except.ok.inj hrem
        have hm : m1 = l1 := congrArg Prod.snd h2
        rw [← hm, hdepmap p.node, getNode_setDeprecated_self]
        obtain ⟨_, hvnd, _⟩ := validate_ok hv
        rw [hvnd]
        rfl
  refine ⟨hl1, ?_⟩
  intro l2 hsteps
  have happ : PositionalList.applyRemove l p = l1 := by
    simp [PositionalList.applyRemove, hrem]
  have hKB1 : KeysBound l1 := by
    rw [← happ]
    exact keys_bound_step hKB (Step1.remove l p)
  have hl2 : (l2.getNode p.node).map Node.deprecated = some true :=
    retired_steps hsteps hKB1 hl1
  refine ⟨hl2, ?_⟩
  intro q item hq
  have hbad : BadPosition l2 q := by
    obtain ⟨nd2, hnd2, hd2⟩ := Option.map_eq_some'.1 hl2
    rw [← hq] at hnd2
    exact Or.inr ⟨nd2, hnd2, hd2⟩
  exact ops_error_of_validate (validate_bad hbad) item

/-- Witness for C2 at a concrete run: `7` is inserted into a fresh list
(node id `2`, list id `0`) and removed again; the permanence statement is
instantiated at the resulting state. -/
theorem C2_witness :
    PositionalList.remove
        (PositionalList.applyInsertFirst (DoublyLinkedBase.empty Nat 0) 7) ⟨2, 0⟩
      = Except.ok (7, (⟨0, 1, 0, [(2, ⟨7, 0, 1, true⟩)], 0, 3⟩ : DoublyLinkedBase Nat)) ∧
    (((⟨0, 1, 0, [(2, ⟨7, 0, 1, true⟩)], 0, 3⟩ : DoublyLinkedBase Nat).getNode 2).map
        Node.deprecated = some true ∧
      ∀ l2 : DoublyLinkedBase Nat,
        Steps (⟨0, 1, 0, [(2, ⟨7, 0, 1, true⟩)], 0, 3⟩ : DoublyLinkedBase Nat) l2 →
        ((l2.getNode 2).map Node.deprecated = some true ∧
          ∀ (q : Position) (item : Nat), q.node = 2 →
            PositionalList.insert_before l2 q item = .error .invalidPosition ∧
            PositionalList.insert_after l2 q item = .error .invalidPosition ∧
            PositionalList.remove l2 q = .error .invalidPosition ∧
            PositionalList.replace l2 q item = .error .invalidPosition ∧
            PositionalList.position_before l2 q = .error .invalidPosition ∧
            PositionalList.position_after l2 q = .error .invalidPosition)) :=
  ⟨rfl,
    @C2_remove_permanently_invalidates Nat
      (PositionalList.applyInsertFirst (DoublyLinkedBase.empty Nat 0) 7)
      (⟨0, 1, 0, [(2, ⟨7, 0, 1, true⟩)], 0, 3⟩ : DoublyLinkedBase Nat) ⟨2, 0⟩ 7
      (Reach.insert_first 7 (Reach.empty 0)) rfl⟩
